import Mathlib

/-! # Parallel-Firewall: the ring buffer (`src/ring_buffer.c`) and its consumers (`src/consumer.c`)

A shallow embedding of the circular buffer that hands packets from the
producer to the consumer threads, of the loop of a consumer thread and of
the start of the consumer pool, and the properties of them that the
specification states.

Modelling conventions.

* `so_packet_t` is declared in `packet.h`, which is not part of the sources at
  hand.  The record type is therefore a type parameter `P`, and
  `sizeof(so_packet_t)` is a parameter `sizeof_pkt : Nat`.  The all-zero record
  that `calloc` leaves in every slot is `default : P`.
* A pointer argument is an `Option`: `none` is `NULL`, `some v` points to `v`.
* `size_t` fields are natural numbers; every arithmetic step of the source
  that can wrap is reduced modulo `SIZE_MOD = 2 ^ 64`.
* The functions run with the queue mutex held between `pthread_mutex_lock`
  and `pthread_mutex_unlock`, so each call is one atomic transition.  A call
  that reaches `pthread_cond_wait` is suspended; the states it finds when it
  is woken up (one per wake-up, spurious ones included) are the list `wakes`.
  With `wakes = []` the outcome `Call.wait` says that the call is blocked.
* An element access outside the allocated storage, or `% 0`, is undefined
  behaviour in C; the embedding reports it as `Call.fault`.
* Diagnostics printed to `stderr` and the signalling of the condition
  variables are not part of the queue state and are left out.
-/

namespace ParallelFirewall

/-- Number of values of a `size_t` (64-bit). -/
def SIZE_MOD : Nat := 2 ^ 64

/-- The conversion `(ssize_t)size` of a `size_t` value. -/
def to_ssize_t (n : Nat) : Int :=
  if n % SIZE_MOD < 2 ^ 63 then ((n % SIZE_MOD : Nat) : Int)
  else ((n % SIZE_MOD : Nat) : Int) - (2 : Int) ^ 64

def RING_BUFFER_SUCCESS : Int := 0
def RING_BUFFER_ERR_NULL_PTR : Int := 1
def RING_BUFFER_ERR_ALLOC : Int := 2
def RING_BUFFER_ERR_MUTEX_INIT : Int := 3

/-- The fields of `struct so_ring_buffer_t` that carry queue state.  The
mutex and the two condition variables are represented by the atomicity of
the operations and by `Call.wait`. -/
structure so_ring_buffer_t (P : Type) where
  data : List P
  read_pos : Nat
  write_pos : Nat
  len : Nat
  cap : Nat
  stop : Int
deriving DecidableEq, Repr

/-- Outcome of one call: it returned `value` and left `post` behind, or it is
suspended in `pthread_cond_wait` (nothing was modified), or it accessed
memory outside the storage. -/
inductive Call (σ : Type) where
  | ret (value : Int) (post : σ)
  | wait
  | fault
deriving DecidableEq, Repr

/-- Results of the library calls made by `ring_buffer_init`. -/
structure InitEnv where
  calloc_ok : Bool
  mutex_init_ok : Bool
  not_empty_init_ok : Bool
  not_full_init_ok : Bool
deriving DecidableEq, Repr

section RingBuffer

variable {P : Type}

/-- `ring_buffer_init`: the returned code, and the queue that exists after
the call (`none` on every error path: the storage is absent or was freed). -/
def ring_buffer_init [Inhabited P] (ring_null : Bool) (cap : Nat) (env : InitEnv) :
    Int × Option (so_ring_buffer_t P) :=
  if ring_null = true ∨ cap = 0 then (RING_BUFFER_ERR_NULL_PTR, none)
  else if env.calloc_ok = false then (RING_BUFFER_ERR_ALLOC, none)
  else
    let ring : so_ring_buffer_t P :=
      { data := List.replicate cap default
        cap := cap
        len := 0
        read_pos := 0
        write_pos := 0
        stop := 0 }
    if env.mutex_init_ok = false then (RING_BUFFER_ERR_MUTEX_INIT, none)
    else if env.not_empty_init_ok = false then (RING_BUFFER_ERR_MUTEX_INIT, none)
    else if env.not_full_init_ok = false then (RING_BUFFER_ERR_MUTEX_INIT, none)
    else (RING_BUFFER_SUCCESS, some ring)

/-- The locked section of `ring_buffer_enqueue`: the wait loop followed by
the insertion.  `size` has already been checked. -/
def enqueue_locked (x : P) (size : Nat) :
    so_ring_buffer_t P → List (so_ring_buffer_t P) → Call (so_ring_buffer_t P)
  | ring, wakes =>
    if ring.len = ring.cap then
      if ring.stop ≠ 0 then .ret (-1) ring
      else
        match wakes with
        | [] => .wait
        | woken :: rest => enqueue_locked x size woken rest
    else if ring.write_pos < ring.data.length ∧ ring.cap ≠ 0 then
      .ret (to_ssize_t size)
        { ring with
          data := ring.data.set ring.write_pos x
          write_pos := ((ring.write_pos + 1) % SIZE_MOD) % ring.cap
          len := (ring.len + 1) % SIZE_MOD }
    else .fault

/-- `ring_buffer_enqueue(ring, data, size)`. -/
def ring_buffer_enqueue (sizeof_pkt : Nat) (ring : Option (so_ring_buffer_t P))
    (data : Option P) (size : Nat) (wakes : List (so_ring_buffer_t P)) :
    Call (Option (so_ring_buffer_t P)) :=
  match ring, data with
  | some r, some x =>
    if size ≠ sizeof_pkt then .ret (-1) ring
    else
      match enqueue_locked x size r wakes with
      | .ret v r' => .ret v (some r')
      | .wait => .wait
      | .fault => .fault
  | _, _ => .ret (-1) ring

/-- The locked section of `ring_buffer_dequeue`: the wait loop followed by
the removal.  The second component of the state is the caller's record. -/
def dequeue_locked (out : P) (size : Nat) :
    so_ring_buffer_t P → List (so_ring_buffer_t P) → Call (so_ring_buffer_t P × P)
  | ring, wakes =>
    if ring.len = 0 then
      if ring.stop ≠ 0 then .ret (-1) (ring, out)
      else
        match wakes with
        | [] => .wait
        | woken :: rest => dequeue_locked out size woken rest
    else
      match ring.data[ring.read_pos]? with
      | some x =>
        if ring.cap ≠ 0 then
          .ret (to_ssize_t size)
            ({ ring with
               read_pos := ((ring.read_pos + 1) % SIZE_MOD) % ring.cap
               len := (ring.len + SIZE_MOD - 1) % SIZE_MOD }, x)
        else .fault
      | none => .fault

/-- `ring_buffer_dequeue(ring, data, size)`.  The caller's record `data` is
part of the state: it is returned as it is after the call. -/
def ring_buffer_dequeue (sizeof_pkt : Nat) (ring : Option (so_ring_buffer_t P))
    (data : Option P) (size : Nat) (wakes : List (so_ring_buffer_t P)) :
    Call (Option (so_ring_buffer_t P) × Option P) :=
  match ring, data with
  | some r, some out =>
    if size ≠ sizeof_pkt then .ret (-1) (ring, data)
    else
      match dequeue_locked out size r wakes with
      | .ret v (r', out') => .ret v (some r', some out')
      | .wait => .wait
      | .fault => .fault
  | _, _ => .ret (-1) (ring, data)

/-- `ring_buffer_stop(ring)`. -/
def ring_buffer_stop (ring : Option (so_ring_buffer_t P)) : Option (so_ring_buffer_t P) :=
  match ring with
  | none => none
  | some r => some { r with stop := 1 }

/-! ## Abstraction, invariant, reachable states and call sequences -/

/-- The records held by the queue, oldest first: the `len` slots that start
at `read_pos`, indices taken modulo `cap`. -/
def contents [Inhabited P] (rb : so_ring_buffer_t P) : List P :=
  (List.range rb.len).map (fun i => rb.data.getD ((rb.read_pos + i) % rb.cap) default)

/-- Representation invariant of an initialised queue. -/
structure Inv (rb : so_ring_buffer_t P) : Prop where
  data_len : rb.data.length = rb.cap
  cap_pos : 0 < rb.cap
  cap_lt : rb.cap < SIZE_MOD
  read_lt : rb.read_pos < rb.cap
  write_lt : rb.write_pos < rb.cap
  len_le : rb.len ≤ rb.cap
  write_eq : rb.write_pos = (rb.read_pos + rb.len) % rb.cap

/-- States reachable from a successful `ring_buffer_init(ring, cap)` by
calls of `ring_buffer_enqueue`, `ring_buffer_dequeue` and `ring_buffer_stop`
that return, whatever their arguments and whatever they return.  A call
that blocks changes nothing, and once woken it acts on the state it finds. -/
inductive Reachable [Inhabited P] (sizeof_pkt cap : Nat) : so_ring_buffer_t P → Prop
  | init (env : InitEnv) (rb : so_ring_buffer_t P) :
      ring_buffer_init false cap env = (RING_BUFFER_SUCCESS, some rb) →
      Reachable sizeof_pkt cap rb
  | enqueue (rb rb' : so_ring_buffer_t P) (data : Option P) (size : Nat) (v : Int) :
      Reachable sizeof_pkt cap rb →
      ring_buffer_enqueue sizeof_pkt (some rb) data size [] = .ret v (some rb') →
      Reachable sizeof_pkt cap rb'
  | dequeue (rb rb' : so_ring_buffer_t P) (data out : Option P) (size : Nat) (v : Int) :
      Reachable sizeof_pkt cap rb →
      ring_buffer_dequeue sizeof_pkt (some rb) data size [] = .ret v (some rb', out) →
      Reachable sizeof_pkt cap rb'
  | stop (rb rb' : so_ring_buffer_t P) :
      Reachable sizeof_pkt cap rb →
      ring_buffer_stop (some rb) = some rb' →
      Reachable sizeof_pkt cap rb'

/-- One call of a single-threaded client of the queue. -/
inductive Op (P : Type) where
  | enq (x : P)
  | deq
deriving DecidableEq, Repr

/-- The records handed to `ring_buffer_enqueue` by a call sequence. -/
def enqueued : List (Op P) → List P
  | [] => []
  | .enq x :: ops => x :: enqueued ops
  | .deq :: ops => enqueued ops

/-- Runs a call sequence on the ring buffer, every call with valid
arguments.  The result is the list of records the dequeues delivered and
the final queue; it is `none` as soon as a call does not complete
successfully (it blocks, returns a negative value, or faults). -/
def run_ops [Inhabited P] (sizeof_pkt : Nat) :
    so_ring_buffer_t P → List (Op P) → Option (List P × so_ring_buffer_t P)
  | rb, [] => some ([], rb)
  | rb, .enq x :: ops =>
    match ring_buffer_enqueue sizeof_pkt (some rb) (some x) sizeof_pkt [] with
    | .ret v (some rb') => if v < 0 then none else run_ops sizeof_pkt rb' ops
    | _ => none
  | rb, .deq :: ops =>
    match ring_buffer_dequeue sizeof_pkt (some rb) (some default) sizeof_pkt [] with
    | .ret v (some rb', some r) =>
      if v < 0 then none
      else (run_ops sizeof_pkt rb' ops).map (fun p => (r :: p.1, p.2))
    | _ => none

/-- The specification's queue: a list bounded by `cap` where enqueue appends
at the back and dequeue removes the front.  The result is the list of
removed records and the final list; it is `none` when the sequence
enqueues on a full queue or dequeues from an empty one. -/
def fifo_run (cap : Nat) : List P → List (Op P) → Option (List P × List P)
  | q, [] => some ([], q)
  | q, .enq x :: ops => if q.length < cap then fifo_run cap (q ++ [x]) ops else none
  | [], .deq :: _ => none
  | r :: q, .deq :: ops => (fifo_run cap q ops).map (fun p => (r :: p.1, p.2))

/-- Up to `n` successive calls `ring_buffer_dequeue(ring, buf, sizeof_pkt)`,
in order, each on the state the previous one left; the sequence ends early
when a call blocks or faults. -/
def dequeue_seq (sizeof_pkt : Nat) (buf : P) :
    Nat → so_ring_buffer_t P → List (Call (Option (so_ring_buffer_t P) × Option P))
  | 0, _ => []
  | n + 1, rb =>
    let c := ring_buffer_dequeue sizeof_pkt (some rb) (some buf) sizeof_pkt []
    c :: (match c with
          | .ret _ (some rb', _) => dequeue_seq sizeof_pkt buf n rb'
          | _ => [])

/-- Successive calls `ring_buffer_enqueue(ring, r, sizeof_pkt)` for the
records of a list; `none` as soon as one of them does not return
`(ssize_t)sizeof_pkt`. -/
def enqueue_all (sizeof_pkt : Nat) : so_ring_buffer_t P → List P → Option (so_ring_buffer_t P)
  | rb, [] => some rb
  | rb, r :: rs =>
    match ring_buffer_enqueue sizeof_pkt (some rb) (some r) sizeof_pkt [] with
    | .ret v (some rb') => if v = to_ssize_t sizeof_pkt then enqueue_all sizeof_pkt rb' rs else none
    | _ => none

/-- What the caller of `ring_buffer_dequeue` observes: the returned value and
its record after the call; `none` when the call did not return. -/
def observed : Call (Option (so_ring_buffer_t P) × Option P) → Option (Int × Option P)
  | .ret v (_, out) => some (v, out)
  | .wait => none
  | .fault => none

/-- The outcome of a dequeue call with `ring_buffer_stop` applied to the queue
it left behind. -/
def stop_after : Call (Option (so_ring_buffer_t P) × Option P) →
    Call (Option (so_ring_buffer_t P) × Option P)
  | .ret v (ring, out) => .ret v (ring_buffer_stop ring, out)
  | .wait => .wait
  | .fault => .fault

end RingBuffer

/-- Every library call of `ring_buffer_init` succeeds. -/
def env_ok : InitEnv := ⟨true, true, true, true⟩

section Steps

variable {P : Type}

/-- One call of `ring_buffer_enqueue`, `ring_buffer_dequeue` or
`ring_buffer_stop` that returns, whatever its arguments and whatever it
returns: the queue before and after. -/
inductive Step (sizeof_pkt : Nat) : so_ring_buffer_t P → so_ring_buffer_t P → Prop
  | enqueue (rb rb' : so_ring_buffer_t P) (data : Option P) (size : Nat) (v : Int) :
      ring_buffer_enqueue sizeof_pkt (some rb) data size [] = .ret v (some rb') →
      Step sizeof_pkt rb rb'
  | dequeue (rb rb' : so_ring_buffer_t P) (data out : Option P) (size : Nat) (v : Int) :
      ring_buffer_dequeue sizeof_pkt (some rb) data size [] = .ret v (some rb', out) →
      Step sizeof_pkt rb rb'
  | stop (rb rb' : so_ring_buffer_t P) :
      ring_buffer_stop (some rb) = some rb' →
      Step sizeof_pkt rb rb'

end Steps

/-! ## The consumer threads (`src/consumer.c`)

`packet.h` and `utils.h` are not part of the sources at hand: `PKT_SZ`,
`process_packet`, `packet_hash`, the header field `hdr.timestamp` and the
macro `RES_TO_STR` are parameters, collected in `PacketLib`.  The sink is the
list of bytes appended to the output file so far.  Besides the state, every
operation yields the list of synchronisation events it performs, in program
order. -/

/-- What `packet.h` and `utils.h` provide to `consumer.c`.  `RES_TO_STR a`
is the C string without its terminator. -/
structure PacketLib (P : Type) where
  PKT_SZ : Nat
  process_packet : P → Int
  packet_hash : P → Nat
  timestamp : P → Nat
  RES_TO_STR : Int → List Char

/-- Synchronisation events: the queue mutex (`pthread_cond_wait` is an
unlock followed, at the wake-up, by a lock), accesses to `ring->stop`, the
file mutex, and `write` on the output file with the bytes handed to it. -/
inductive Event where
  | queue_lock
  | queue_unlock
  | stop_read
  | stop_write
  | file_lock
  | file_unlock
  | sink_write (bytes : List Char)
deriving DecidableEq, Repr

/-- The conversion `%016lx` of an `unsigned long`: lowercase hexadecimal,
padded with zeros on the left to a width of at least 16. -/
def fmt_016lx (h : Nat) : List Char :=
  List.replicate (16 - (Nat.toDigits 16 h).length) '0' ++ Nat.toDigits 16 h

/-- The conversion `%lu` of an `unsigned long`: decimal. -/
def fmt_lu (t : Nat) : List Char := Nat.toDigits 10 t

/-- The output of the format `"%s %016lx %lu\n"`. -/
def format_line (tok : List Char) (h t : Nat) : List Char :=
  tok ++ ' ' :: fmt_016lx h ++ ' ' :: fmt_lu t ++ ['\n']

/-- The value of a string of hexadecimal digits. -/
def hex_value (cs : List Char) : Nat :=
  cs.foldl (fun acc c =>
    16 * acc + (if c.toNat < 58 then c.toNat - 48 else c.toNat - 87)) 0

/-- What `write(out_fd, out_buf, len)` does, chosen by the system: it fails,
or it accepts the first `n` bytes only, or it accepts all of them. -/
inductive WriteResult where
  | error
  | short (n : Nat)
  | full
deriving DecidableEq, Repr

/-- The returned value of `write` for `count` bytes. -/
def WriteResult.value : WriteResult → Nat → Int
  | .error, _ => -1
  | .short n, count => (min n count : Nat)
  | .full, count => (count : Nat)

/-- The bytes `write` appends to the file. -/
def WriteResult.appended : WriteResult → List Char → List Char
  | .error, _ => []
  | .short n, bytes => bytes.take n
  | .full, bytes => bytes

section Consumer

variable {P : Type}

/-- What the surroundings decide in one iteration of the worker loop: the
states found at the wake-ups inside `ring_buffer_dequeue`, whether
`snprintf` fails, and the outcome of `write`. -/
structure IterEnv (P : Type) where
  wakes : List (so_ring_buffer_t P)
  snprintf_fails : Bool
  write_result : WriteResult

/-- The state a worker acts on: the shared queue, its local `buffer`, and the
contents of the output file. -/
structure Worker (P : Type) where
  ring : so_ring_buffer_t P
  buffer : P
  sink : List Char

/-- How one iteration of the loop of `consumer_thread` ends: at the end of
the body or at a `continue` (`again`), at the `break` (`leave`), suspended
inside `ring_buffer_dequeue`, or with an access outside an array. -/
inductive Iter (P : Type) where
  | again (w : Worker P)
  | leave (w : Worker P)
  | blocked
  | fault

/-- Events of the wait loop and the rest of the locked section of
`ring_buffer_dequeue`. -/
def dequeue_locked_events :
    so_ring_buffer_t P → List (so_ring_buffer_t P) → List Event
  | ring, wakes =>
    if ring.len = 0 then
      if ring.stop ≠ 0 then [.stop_read, .queue_unlock]
      else
        match wakes with
        | [] => [.stop_read, .queue_unlock]
        | woken :: rest =>
          .stop_read :: .queue_unlock :: .queue_lock :: dequeue_locked_events woken rest
    else [.queue_unlock]

/-- Events of `ring_buffer_dequeue(ring, data, size)`. -/
def ring_buffer_dequeue_events (sizeof_pkt : Nat) (ring : Option (so_ring_buffer_t P))
    (data : Option P) (size : Nat) (wakes : List (so_ring_buffer_t P)) : List Event :=
  match ring, data with
  | some r, some _ =>
    if size ≠ sizeof_pkt then [] else .queue_lock :: dequeue_locked_events r wakes
  | _, _ => []

/-- Events of the wait loop and the rest of the locked section of
`ring_buffer_enqueue`. -/
def enqueue_locked_events :
    so_ring_buffer_t P → List (so_ring_buffer_t P) → List Event
  | ring, wakes =>
    if ring.len = ring.cap then
      if ring.stop ≠ 0 then [.stop_read, .queue_unlock]
      else
        match wakes with
        | [] => [.stop_read, .queue_unlock]
        | woken :: rest =>
          .stop_read :: .queue_unlock :: .queue_lock :: enqueue_locked_events woken rest
    else [.queue_unlock]

/-- Events of `ring_buffer_enqueue(ring, data, size)`. -/
def ring_buffer_enqueue_events (sizeof_pkt : Nat) (ring : Option (so_ring_buffer_t P))
    (data : Option P) (size : Nat) (wakes : List (so_ring_buffer_t P)) : List Event :=
  match ring, data with
  | some r, some _ =>
    if size ≠ sizeof_pkt then [] else .queue_lock :: enqueue_locked_events r wakes
  | _, _ => []

/-- Events of `ring_buffer_stop(ring)`. -/
def ring_buffer_stop_events (ring : Option (so_ring_buffer_t P)) : List Event :=
  match ring with
  | none => []
  | some _ => [.queue_lock, .stop_write, .queue_unlock]

/-- Whether every access to `ring->stop` in a sequence of events happens with
the queue mutex held; `held` says whether it is held at the start. -/
def stop_access_locked : Bool → List Event → Bool
  | _, [] => true
  | _, .queue_lock :: es => stop_access_locked true es
  | _, .queue_unlock :: es => stop_access_locked false es
  | held, .stop_read :: es => held && stop_access_locked held es
  | held, .stop_write :: es => held && stop_access_locked held es
  | held, _ :: es => stop_access_locked held es

/-- Whether every `write` on the output file in a sequence of events happens
with the file mutex held, the mutex is never taken while held nor released
while free, and it is free at the end; `held` says whether it is held at the
start. -/
def sink_access_locked : Bool → List Event → Bool
  | held, [] => !held
  | held, .file_lock :: es => !held && sink_access_locked true es
  | held, .file_unlock :: es => held && sink_access_locked false es
  | held, .sink_write _ :: es => held && sink_access_locked held es
  | held, _ :: es => sink_access_locked held es

/-- The events of a sequence that concern the output file. -/
def file_events (es : List Event) : List Event :=
  es.filter (fun e =>
    match e with
    | .file_lock => true
    | .file_unlock => true
    | .sink_write _ => true
    | _ => false)

/-- The line `consumer_thread` formats for the record `pkt`. -/
def result_line (lib : PacketLib P) (pkt : P) : List Char :=
  format_line (lib.RES_TO_STR (lib.process_packet pkt))
    (lib.packet_hash pkt % SIZE_MOD) (lib.timestamp pkt % SIZE_MOD)

/-- One iteration of the `for (;;)` loop of `consumer_thread`, started with
the queue, the local buffer and the file as in `w`: how it ends, and the
events it performs.  `out_buf` holds the first `PKT_SZ - 1` characters of the
line and a terminator; `write` is handed its first `len` bytes, which lie
outside the array when `len > PKT_SZ`. -/
def consumer_iteration (lib : PacketLib P) (sizeof_pkt : Nat) (env : IterEnv P)
    (w : Worker P) : Iter P × List Event :=
  let evs := ring_buffer_dequeue_events sizeof_pkt (some w.ring) (some w.buffer)
    lib.PKT_SZ env.wakes
  match ring_buffer_dequeue sizeof_pkt (some w.ring) (some w.buffer) lib.PKT_SZ env.wakes with
  | .wait => (.blocked, evs)
  | .fault => (.fault, evs)
  | .ret sz (some ring, some buffer) =>
    if sz ≤ 0 then
      if ring.stop ≠ 0 then (.leave ⟨ring, buffer, w.sink⟩, evs ++ [.stop_read])
      else (.again ⟨ring, buffer, w.sink⟩, evs ++ [.stop_read])
    else
      let line := result_line lib buffer
      let len : Int := if env.snprintf_fails then -1 else (line.length : Int)
      if len ≤ 0 then (.again ⟨ring, buffer, w.sink⟩, evs)
      else if lib.PKT_SZ < line.length then (.fault, evs ++ [.file_lock])
      else
        let out_buf := line.take (lib.PKT_SZ - 1) ++ [Char.ofNat 0]
        let bytes := out_buf.take line.length
        (.again ⟨ring, buffer, w.sink ++ env.write_result.appended bytes⟩,
          evs ++ [.file_lock, .sink_write bytes, .file_unlock])
  | .ret _ _ => (.fault, evs)

/-- How a run of `consumer_thread` stands after the iterations of a
schedule: it reached `pthread_exit`, it is still in the loop, it is
suspended inside `ring_buffer_dequeue`, or it accessed memory outside an
array. -/
inductive Thread (P : Type) where
  | exited (w : Worker P)
  | looping (w : Worker P)
  | blocked
  | fault

/-- The function `consumer_thread`: the loop, one iteration per element of
the schedule `envs`. -/
def consumer_thread (lib : PacketLib P) (sizeof_pkt : Nat) :
    List (IterEnv P) → Worker P → Thread P × List Event
  | [], w => (.looping w, [])
  | env :: envs, w =>
    match consumer_iteration lib sizeof_pkt env w with
    | (.again w', evs) =>
      ((consumer_thread lib sizeof_pkt envs w').1,
        evs ++ (consumer_thread lib sizeof_pkt envs w').2)
    | (.leave w', evs) => (.exited w', evs)
    | (.blocked, evs) => (.blocked, evs)
    | (.fault, evs) => (.fault, evs)

/-- The constants of `packet.h` and `utils.h` fit together: `PKT_SZ` is the
size of a record, a positive `ssize_t` value, and every outcome token
leaves room in `out_buf` for the 39 further characters of the longest line
and the terminator. -/
structure PacketLib.WellFormed (lib : PacketLib P) (sizeof_pkt : Nat) : Prop where
  pkt_sz_eq : lib.PKT_SZ = sizeof_pkt
  size_pos : 0 < sizeof_pkt
  size_lt : sizeof_pkt < 2 ^ 63
  token_fits : ∀ a : Int, (lib.RES_TO_STR a).length + 39 < lib.PKT_SZ

end Consumer

/-- A library for records that are natural numbers: even records pass, the
digest is the record times 1000003, the timestamp is the record itself. -/
def lib_example : PacketLib Nat where
  PKT_SZ := 256
  process_packet := fun r => if r % 2 = 0 then 0 else 1
  packet_hash := fun r => r * 1000003
  timestamp := fun r => r
  RES_TO_STR := fun a => if a = 0 then "PASS".toList else "DROP".toList

/-! ### Starting the pool (`create_consumers`)

The queue is only passed on, so it is an abstract reference of type `Q`; the
file name has type `F`.  All contexts point to the one static `file_lock`,
which is therefore not a field here; `timestamp_lock` and
`last_processed_timestamp` are not set by `initialize_context`. -/

/-- The fields of `so_consumer_ctx_t` that `initialize_context` sets. -/
structure so_consumer_ctx_t (Q F : Type) where
  ring_buffer : Q
  out_filename : F
  out_fd : Int
deriving DecidableEq, Repr

/-- Where a started worker acts on `pthread_cancel`.  Cancellation is
deferred: the worker ends at the next cancellation point it reaches, and
`consumer_thread` installs no cleanup handler, so it ends owning every mutex
it holds there.  The points of the worker are `pthread_cond_wait` inside
`ring_buffer_dequeue`, which locks `ring->lock` again before the thread is
cancelled; `write`, called with `file_lock` held; and the diagnostics on
`stderr`, printed with no mutex held. -/
inductive CancelPoint where
  | cond_wait
  | write
  | unlocked
deriving DecidableEq, Repr

/-- Results of the library calls made by `create_consumers`: the value of
`open`, for the worker with index `i` whether `malloc` and `pthread_create`
succeed, and the point at which worker `i` acts on a cancellation. -/
structure PoolEnv where
  open_result : Int
  malloc_ok : Nat → Bool
  create_ok : Nat → Bool
  cancelled_at : Nat → CancelPoint

/-- The mutexes whose owner has ended without unlocking them: nobody can lock
them any more. -/
structure Orphaned where
  ring_lock : Bool
  file_lock : Bool
deriving DecidableEq, Repr

/-- `pthread_cancel(tids[i]); pthread_join(tids[i], NULL)` for a worker that
acts on the cancellation at `p`: the mutexes orphaned when the join returns,
or `none` when the worker cannot get the mutex it needs at `p`, never ends,
and `pthread_join` never returns. -/
def cancel_and_join (p : CancelPoint) (o : Orphaned) : Option Orphaned :=
  match p with
  | .cond_wait => if o.ring_lock = true then none else some { o with ring_lock := true }
  | .write => if o.file_lock = true then none else some { o with file_lock := true }
  | .unlocked => some o

/-- What `create_consumers` does to the file and to the threads: `open` with
its result, a successful `pthread_create` of `tids[i]` with its context,
`pthread_cancel`, a `pthread_join` that returned, `close`. -/
inductive PoolEvent (Q F : Type) where
  | open_file (name : F) (fd : Int)
  | create (i : Nat) (ctx : so_consumer_ctx_t Q F)
  | cancel (i : Nat)
  | join (i : Nat)
  | close (fd : Int)
deriving DecidableEq, Repr

section Pool

variable {Q F : Type}

/-- The `for` loop of `cleanup_threads` from index `i` on, with `remaining`
iterations to go and the mutexes orphaned so far: whether the loop ends, and
the events.  It does not end when a `pthread_join` never returns. -/
def cleanup_loop (env : PoolEnv) : Nat → Nat → Orphaned → Bool × List (PoolEvent Q F)
  | 0, _, _ => (true, [])
  | remaining + 1, i, o =>
    match cancel_and_join (env.cancelled_at i) o with
    | none => (false, [.cancel i])
    | some o' =>
      ((cleanup_loop env remaining (i + 1) o').1,
        .cancel i :: .join i :: (cleanup_loop env remaining (i + 1) o').2)

/-- `cleanup_threads(tids, threads_created, out_fd)`, called when no mutex is
orphaned: whether it returns, and the events. -/
def cleanup_threads (env : PoolEnv) (threads_created : Nat) (out_fd : Int) :
    Bool × List (PoolEvent Q F) :=
  if (cleanup_loop (Q := Q) (F := F) env threads_created 0 ⟨false, false⟩).1 = true then
    (true, (cleanup_loop env threads_created 0 ⟨false, false⟩).2 ++
      (if 0 ≤ out_fd then [.close out_fd] else []))
  else (false, (cleanup_loop env threads_created 0 ⟨false, false⟩).2)

/-- The statements `cleanup_threads(...); return -1;`: the value `-1` when
the cleanup returns, no value when it does not. -/
def cleanup_and_fail (env : PoolEnv) (threads_created : Nat) (out_fd : Int) :
    Option Int × List (PoolEvent Q F) :=
  (if (cleanup_threads (Q := Q) (F := F) env threads_created out_fd).1 = true then some (-1)
    else none,
   (cleanup_threads env threads_created out_fd).2)

/-- `initialize_context(rb, out_filename, out_fd, &file_lock)`: the new
context, or `none` (`NULL`) when `malloc` fails. -/
def initialize_context (malloc_ok : Bool) (rb : Q) (out_filename : F) (out_fd : Int) :
    Option (so_consumer_ctx_t Q F) :=
  if malloc_ok = false then none
  else some { ring_buffer := rb, out_filename := out_filename, out_fd := out_fd }

/-- The `for` loop of `create_consumers` from index `i` on, with
`remaining = num_consumers - i` iterations to go: the returned value, `none`
when the call never returns, and the events. -/
def create_loop (env : PoolEnv) (rb : Q) (out_filename : F) (out_fd : Int) :
    Nat → Nat → Nat → Option Int × List (PoolEvent Q F)
  | 0, _, threads_created => (some (threads_created : Int), [])
  | remaining + 1, i, threads_created =>
    match initialize_context (env.malloc_ok i) rb out_filename out_fd with
    | none => cleanup_and_fail env threads_created out_fd
    | some ctx =>
      if env.create_ok i = false then cleanup_and_fail env threads_created out_fd
      else
        ((create_loop env rb out_filename out_fd remaining (i + 1) (threads_created + 1)).1,
          .create i ctx ::
            (create_loop env rb out_filename out_fd remaining (i + 1) (threads_created + 1)).2)

/-- `create_consumers(tids, num_consumers, rb, out_filename)`: the returned
value, `none` when the call never returns, and the events. -/
def create_consumers (env : PoolEnv) (num_consumers : Int) (rb : Q) (out_filename : F) :
    Option Int × List (PoolEvent Q F) :=
  if env.open_result < 0 then (some (-1), [.open_file out_filename env.open_result])
  else
    ((create_loop env rb out_filename env.open_result num_consumers.toNat 0 0).1,
      .open_file out_filename env.open_result ::
        (create_loop env rb out_filename env.open_result num_consumers.toNat 0 0).2)

/-- The workers that run after a sequence of events: started and not yet
joined. -/
def running_workers : List (PoolEvent Q F) → List Nat → List Nat
  | [], running => running
  | .create i _ :: es, running => running_workers es (running ++ [i])
  | .join i :: es, running => running_workers es (running.filter (fun j => j ≠ i))
  | _ :: es, running => running_workers es running

/-- The descriptors that are open after a sequence of events. -/
def open_files : List (PoolEvent Q F) → List Int → List Int
  | [], fds => fds
  | .open_file _ fd :: es, fds => open_files es (if 0 ≤ fd then fds ++ [fd] else fds)
  | .close fd :: es, fds => open_files es (fds.filter (fun g => g ≠ fd))
  | _ :: es, fds => open_files es fds

end Pool

/-- A system on which `open` returns 3, worker 2 cannot be started, and
the workers started before it are idle in `pthread_cond_wait`, the queue
being empty. -/
def pool_env_example : PoolEnv where
  open_result := 3
  malloc_ok := fun _ => true
  create_ok := fun i => decide (i ≠ 2)
  cancelled_at := fun _ => .cond_wait

/-! ## Lemmas -/

section Lemmas

variable {P : Type}

theorem add_mod_ne_of_lt {a i j c : Nat} (hij : i < j) (hj : j < c) :
    (a + i) % c ≠ (a + j) % c := by
  intro h
  have h1 : i % c = j % c := Nat.ModEq.add_left_cancel' a h
  rw [Nat.mod_eq_of_lt (lt_trans hij hj), Nat.mod_eq_of_lt hj] at h1
  omega

theorem to_ssize_t_of_lt {n : Nat} (h : n < 2 ^ 63) : to_ssize_t n = (n : Int) := by
  have h1 : n % SIZE_MOD = n := Nat.mod_eq_of_lt (by unfold SIZE_MOD; omega)
  unfold to_ssize_t
  rw [h1, if_pos h]

theorem enqueue_locked_full_stopped (x : P) (size : Nat) (ring : so_ring_buffer_t P)
    (wakes : List (so_ring_buffer_t P)) (hfull : ring.len = ring.cap) (hstop : ring.stop ≠ 0) :
    enqueue_locked x size ring wakes = .ret (-1) ring := by
  cases wakes <;> simp [enqueue_locked, hfull, hstop]

theorem enqueue_locked_insert (x : P) (size : Nat) (ring : so_ring_buffer_t P)
    (wakes : List (so_ring_buffer_t P)) (hlen : ring.len ≠ ring.cap)
    (hw : ring.write_pos < ring.data.length) (hcap : ring.cap ≠ 0) :
    enqueue_locked x size ring wakes =
      .ret (to_ssize_t size)
        { ring with
          data := ring.data.set ring.write_pos x
          write_pos := ((ring.write_pos + 1) % SIZE_MOD) % ring.cap
          len := (ring.len + 1) % SIZE_MOD } := by
  cases wakes <;> simp [enqueue_locked, hlen, hw, hcap]

theorem dequeue_locked_empty_stopped (out : P) (size : Nat) (ring : so_ring_buffer_t P)
    (wakes : List (so_ring_buffer_t P)) (hempty : ring.len = 0) (hstop : ring.stop ≠ 0) :
    dequeue_locked out size ring wakes = .ret (-1) (ring, out) := by
  cases wakes <;> simp [dequeue_locked, hempty, hstop]

theorem dequeue_locked_remove (out : P) (size : Nat) (ring : so_ring_buffer_t P)
    (wakes : List (so_ring_buffer_t P)) (hlen : ring.len ≠ 0)
    (hr : ring.read_pos < ring.data.length) (hcap : ring.cap ≠ 0) :
    dequeue_locked out size ring wakes =
      .ret (to_ssize_t size)
        ({ ring with
           read_pos := ((ring.read_pos + 1) % SIZE_MOD) % ring.cap
           len := (ring.len + SIZE_MOD - 1) % SIZE_MOD }, ring.data[ring.read_pos]) := by
  cases wakes <;> simp [dequeue_locked, hlen, hr, hcap, List.getElem?_eq_getElem hr]

theorem contents_length [Inhabited P] (rb : so_ring_buffer_t P) :
    (contents rb).length = rb.len := by
  simp [contents]

theorem inv_enqueue {ring : so_ring_buffer_t P} (h : Inv ring) (x : P)
    (hlen : ring.len ≠ ring.cap) :
    Inv { ring with
          data := ring.data.set ring.write_pos x
          write_pos := (ring.write_pos + 1) % ring.cap
          len := ring.len + 1 } := by
  have hle := h.len_le
  refine ⟨?_, h.cap_pos, h.cap_lt, h.read_lt, ?_, ?_, ?_⟩
  · simpa using h.data_len
  · exact Nat.mod_lt _ h.cap_pos
  · show ring.len + 1 ≤ ring.cap
    omega
  · show (ring.write_pos + 1) % ring.cap = (ring.read_pos + (ring.len + 1)) % ring.cap
    rw [h.write_eq, Nat.mod_add_mod, Nat.add_assoc]

theorem enqueue_locked_of_inv {ring : so_ring_buffer_t P} (h : Inv ring) (x : P) (size : Nat)
    (wakes : List (so_ring_buffer_t P)) (hlen : ring.len ≠ ring.cap) :
    enqueue_locked x size ring wakes =
      .ret (to_ssize_t size)
        { ring with
          data := ring.data.set ring.write_pos x
          write_pos := (ring.write_pos + 1) % ring.cap
          len := ring.len + 1 } := by
  have hw := h.write_lt
  have hc := h.cap_lt
  have hle := h.len_le
  rw [enqueue_locked_insert x size ring wakes hlen (by rw [h.data_len]; exact hw)
    (Nat.pos_iff_ne_zero.mp h.cap_pos)]
  rw [Nat.mod_eq_of_lt (show ring.write_pos + 1 < SIZE_MOD by omega),
    Nat.mod_eq_of_lt (show ring.len + 1 < SIZE_MOD by omega)]

theorem contents_enqueue [Inhabited P] {ring : so_ring_buffer_t P} (h : Inv ring) (x : P)
    (hlen : ring.len ≠ ring.cap) :
    contents { ring with
               data := ring.data.set ring.write_pos x
               write_pos := (ring.write_pos + 1) % ring.cap
               len := ring.len + 1 } = contents ring ++ [x] := by
  have hle := h.len_le
  have hlt : ring.len < ring.cap := by omega
  simp only [contents, List.range_succ, List.map_append, List.map_cons, List.map_nil]
  congr 1
  · apply List.map_congr_left
    intro i hi
    have hi' : i < ring.len := List.mem_range.mp hi
    have hne : ring.write_pos ≠ (ring.read_pos + i) % ring.cap := by
      rw [h.write_eq]
      exact (add_mod_ne_of_lt hi' hlt).symm
    simp [List.getD_eq_getElem?_getD, List.getElem?_set, hne]
  · have hw : ring.write_pos < ring.data.length := by rw [h.data_len]; exact h.write_lt
    simp [List.getD_eq_getElem?_getD, ← h.write_eq, hw]

theorem inv_dequeue {ring : so_ring_buffer_t P} (h : Inv ring) (hlen : ring.len ≠ 0) :
    Inv { ring with
          read_pos := (ring.read_pos + 1) % ring.cap
          len := ring.len - 1 } := by
  have hle := h.len_le
  refine ⟨h.data_len, h.cap_pos, h.cap_lt, ?_, h.write_lt, ?_, ?_⟩
  · exact Nat.mod_lt _ h.cap_pos
  · show ring.len - 1 ≤ ring.cap
    omega
  · show ring.write_pos = ((ring.read_pos + 1) % ring.cap + (ring.len - 1)) % ring.cap
    rw [h.write_eq, Nat.mod_add_mod]
    congr 1
    omega

theorem dequeue_locked_of_inv {ring : so_ring_buffer_t P} (h : Inv ring) (out : P) (size : Nat)
    (wakes : List (so_ring_buffer_t P)) (hlen : ring.len ≠ 0) :
    dequeue_locked out size ring wakes =
      .ret (to_ssize_t size)
        ({ ring with
           read_pos := (ring.read_pos + 1) % ring.cap
           len := ring.len - 1 },
         ring.data.get ⟨ring.read_pos, by rw [h.data_len]; exact h.read_lt⟩) := by
  have hr := h.read_lt
  have hc := h.cap_lt
  have hle := h.len_le
  rw [dequeue_locked_remove out size ring wakes hlen (by rw [h.data_len]; exact hr)
    (Nat.pos_iff_ne_zero.mp h.cap_pos)]
  rw [Nat.mod_eq_of_lt (show ring.read_pos + 1 < SIZE_MOD by omega)]
  have e : (ring.len + SIZE_MOD - 1) % SIZE_MOD = ring.len - 1 := by
    have : ring.len + SIZE_MOD - 1 = (ring.len - 1) + SIZE_MOD := by omega
    rw [this, Nat.add_mod_right]
    exact Nat.mod_eq_of_lt (by omega)
  rw [e]
  rfl

theorem contents_dequeue [Inhabited P] {ring : so_ring_buffer_t P} (h : Inv ring)
    (hlen : ring.len ≠ 0) :
    contents ring =
      ring.data.get ⟨ring.read_pos, by rw [h.data_len]; exact h.read_lt⟩ ::
        contents { ring with
                   read_pos := (ring.read_pos + 1) % ring.cap
                   len := ring.len - 1 } := by
  have hr : ring.read_pos < ring.data.length := by rw [h.data_len]; exact h.read_lt
  obtain ⟨n, hn⟩ : ∃ n, ring.len = n + 1 := ⟨ring.len - 1, by omega⟩
  simp only [contents, hn, Nat.add_sub_cancel, List.range_succ_eq_map, List.map_cons,
    List.map_map]
  congr 1
  · simp [List.getD_eq_getElem?_getD, Nat.mod_eq_of_lt h.read_lt, hr]
  · apply List.map_congr_left
    intro i _
    simp only [Function.comp, Nat.mod_add_mod]
    congr 2
    omega

theorem init_success [Inhabited P] {ring_null : Bool} {cap : Nat} {env : InitEnv} {c : Int}
    {rb : so_ring_buffer_t P} (h : ring_buffer_init ring_null cap env = (c, some rb)) :
    c = 0 ∧ cap ≠ 0 ∧ ring_null = false ∧
      rb = { data := List.replicate cap default, read_pos := 0, write_pos := 0,
             len := 0, cap := cap, stop := 0 } := by
  unfold ring_buffer_init at h
  split_ifs at h with h1 h2 h3 h4 h5 <;> simp at h
  obtain ⟨hc, hrb⟩ := h
  push_neg at h1
  refine ⟨?_, h1.2, by simpa using h1.1, hrb.symm⟩
  rw [← hc]; rfl

theorem inv_init [Inhabited P] {ring_null : Bool} {cap : Nat} {env : InitEnv} {c : Int}
    {rb : so_ring_buffer_t P} (h : ring_buffer_init ring_null cap env = (c, some rb))
    (hcap : cap < SIZE_MOD) : Inv rb := by
  obtain ⟨_, hpos, _, rfl⟩ := init_success h
  have : 0 < cap := Nat.pos_of_ne_zero hpos
  exact ⟨by simp, this, hcap, this, this, Nat.zero_le _, by simp⟩

theorem enqueue_locked_ret {ring r' : so_ring_buffer_t P} (h : Inv ring) {x : P} {size : Nat}
    {v : Int} (hc : enqueue_locked x size ring [] = .ret v r') :
    (r' = ring ∧ v = -1 ∧ ring.len = ring.cap ∧ ring.stop ≠ 0) ∨
    (ring.len ≠ ring.cap ∧ v = to_ssize_t size ∧
      r' = { ring with
             data := ring.data.set ring.write_pos x
             write_pos := (ring.write_pos + 1) % ring.cap
             len := ring.len + 1 }) := by
  by_cases hfull : ring.len = ring.cap
  · by_cases hstop : ring.stop = 0
    · simp [enqueue_locked, hfull, hstop] at hc
    · rw [enqueue_locked_full_stopped x size ring [] hfull hstop] at hc
      injection hc with hv hr
      exact Or.inl ⟨hr.symm, hv.symm, hfull, hstop⟩
  · rw [enqueue_locked_of_inv h x size [] hfull] at hc
    injection hc with hv hr
    exact Or.inr ⟨hfull, hv.symm, hr.symm⟩

theorem dequeue_locked_ret {ring r' : so_ring_buffer_t P} (h : Inv ring) {out o' : P}
    {size : Nat} {v : Int} (hc : dequeue_locked out size ring [] = .ret v (r', o')) :
    (r' = ring ∧ o' = out ∧ v = -1 ∧ ring.len = 0 ∧ ring.stop ≠ 0) ∨
    (ring.len ≠ 0 ∧ v = to_ssize_t size ∧
      r' = { ring with
             read_pos := (ring.read_pos + 1) % ring.cap
             len := ring.len - 1 } ∧
      o' = ring.data.get ⟨ring.read_pos, by rw [h.data_len]; exact h.read_lt⟩) := by
  by_cases hempty : ring.len = 0
  · by_cases hstop : ring.stop = 0
    · simp [dequeue_locked, hempty, hstop] at hc
    · rw [dequeue_locked_empty_stopped out size ring [] hempty hstop] at hc
      injection hc with hv hr
      injection hr with hr ho
      exact Or.inl ⟨hr.symm, ho.symm, hv.symm, hempty, hstop⟩
  · rw [dequeue_locked_of_inv h out size [] hempty] at hc
    injection hc with hv hr
    injection hr with hr ho
    exact Or.inr ⟨hempty, hv.symm, hr.symm, ho.symm⟩

theorem enqueue_step_cases {sizeof_pkt : Nat} {rb rb' : so_ring_buffer_t P} {data : Option P}
    {size : Nat} {v : Int} (h : Inv rb)
    (hc : ring_buffer_enqueue sizeof_pkt (some rb) data size [] = .ret v (some rb')) :
    (rb' = rb ∧ v = -1) ∨
    (∃ x, data = some x ∧ size = sizeof_pkt ∧ rb.len ≠ rb.cap ∧ v = to_ssize_t sizeof_pkt ∧
      rb' = { rb with
              data := rb.data.set rb.write_pos x
              write_pos := (rb.write_pos + 1) % rb.cap
              len := rb.len + 1 }) := by
  cases data with
  | none =>
    simp [ring_buffer_enqueue] at hc
    exact Or.inl ⟨hc.2.symm, hc.1.symm⟩
  | some x =>
    by_cases hs : size = sizeof_pkt
    · simp only [ring_buffer_enqueue, hs, ne_eq, not_true_eq_false, if_false] at hc
      cases hl : enqueue_locked x sizeof_pkt rb [] with
      | ret v1 r1 =>
        rw [hl] at hc
        injection hc with hv hr
        injection hr with hr
        subst hr hv
        rcases enqueue_locked_ret h hl with ⟨e, ev, _⟩ | ⟨hne, ev, e⟩
        · exact Or.inl ⟨e, ev⟩
        · exact Or.inr ⟨x, rfl, hs, hne, ev, e⟩
      | wait => rw [hl] at hc; cases hc
      | fault => rw [hl] at hc; cases hc
    · simp [ring_buffer_enqueue, hs] at hc
      exact Or.inl ⟨hc.2.symm, hc.1.symm⟩

theorem dequeue_step_cases {sizeof_pkt : Nat} {rb rb' : so_ring_buffer_t P}
    {data out : Option P} {size : Nat} {v : Int} (h : Inv rb)
    (hc : ring_buffer_dequeue sizeof_pkt (some rb) data size [] = .ret v (some rb', out)) :
    (rb' = rb ∧ out = data ∧ v = -1) ∨
    (data ≠ none ∧ size = sizeof_pkt ∧ rb.len ≠ 0 ∧ v = to_ssize_t sizeof_pkt ∧
      rb' = { rb with
              read_pos := (rb.read_pos + 1) % rb.cap
              len := rb.len - 1 } ∧
      out = some (rb.data.get ⟨rb.read_pos, by rw [h.data_len]; exact h.read_lt⟩)) := by
  cases data with
  | none =>
    simp [ring_buffer_dequeue] at hc
    exact Or.inl ⟨hc.2.1.symm, hc.2.2.symm, hc.1.symm⟩
  | some x =>
    by_cases hs : size = sizeof_pkt
    · simp only [ring_buffer_dequeue, hs, ne_eq, not_true_eq_false, if_false] at hc
      cases hl : dequeue_locked x sizeof_pkt rb [] with
      | ret v1 p1 =>
        obtain ⟨r1, o1⟩ := p1
        rw [hl] at hc
        simp only [Call.ret.injEq, Prod.mk.injEq, Option.some.injEq] at hc
        obtain ⟨hv, hr, ho⟩ := hc
        subst hr hv ho
        rcases dequeue_locked_ret h hl with ⟨e, eo, ev, _⟩ | ⟨hne, ev, e, eo⟩
        · exact Or.inl ⟨e, by rw [eo], ev⟩
        · exact Or.inr ⟨by simp, hs, hne, ev, e, by rw [eo]⟩
      | wait => rw [hl] at hc; cases hc
      | fault => rw [hl] at hc; cases hc
    · simp [ring_buffer_dequeue, hs] at hc
      exact Or.inl ⟨hc.2.1.symm, hc.2.2.symm, hc.1.symm⟩

theorem inv_enqueue_step {sizeof_pkt : Nat} {rb rb' : so_ring_buffer_t P} {data : Option P}
    {size : Nat} {v : Int} (h : Inv rb)
    (hc : ring_buffer_enqueue sizeof_pkt (some rb) data size [] = .ret v (some rb')) :
    Inv rb' ∧ rb'.cap = rb.cap ∧ rb'.stop = rb.stop := by
  rcases enqueue_step_cases h hc with ⟨e, _⟩ | ⟨x, _, _, hne, _, e⟩
  · rw [e]; exact ⟨h, rfl, rfl⟩
  · rw [e]; exact ⟨inv_enqueue h x hne, rfl, rfl⟩

theorem inv_dequeue_step {sizeof_pkt : Nat} {rb rb' : so_ring_buffer_t P} {data out : Option P}
    {size : Nat} {v : Int} (h : Inv rb)
    (hc : ring_buffer_dequeue sizeof_pkt (some rb) data size [] = .ret v (some rb', out)) :
    Inv rb' ∧ rb'.cap = rb.cap ∧ rb'.stop = rb.stop := by
  rcases dequeue_step_cases h hc with ⟨e, _⟩ | ⟨_, _, hne, _, e, _⟩
  · rw [e]; exact ⟨h, rfl, rfl⟩
  · rw [e]; exact ⟨inv_dequeue h hne, rfl, rfl⟩

theorem inv_stop {rb rb' : so_ring_buffer_t P} (h : Inv rb)
    (hc : ring_buffer_stop (some rb) = some rb') : Inv rb' ∧ rb'.cap = rb.cap := by
  simp [ring_buffer_stop] at hc
  rw [← hc]
  exact ⟨⟨h.data_len, h.cap_pos, h.cap_lt, h.read_lt, h.write_lt, h.len_le, h.write_eq⟩, rfl⟩

theorem reachable_inv [Inhabited P] {sizeof_pkt cap : Nat} {rb : so_ring_buffer_t P}
    (hcap : cap < SIZE_MOD) (h : Reachable sizeof_pkt cap rb) : Inv rb ∧ rb.cap = cap := by
  induction h with
  | init env rb hi =>
    refine ⟨inv_init hi hcap, ?_⟩
    obtain ⟨_, _, _, rfl⟩ := init_success hi
    rfl
  | enqueue rb rb' data size v _ hc ih =>
    have := inv_enqueue_step ih.1 hc
    exact ⟨this.1, this.2.1.trans ih.2⟩
  | dequeue rb rb' data out size v _ hc ih =>
    have := inv_dequeue_step ih.1 hc
    exact ⟨this.1, this.2.1.trans ih.2⟩
  | stop rb rb' _ hc ih =>
    have := inv_stop ih.1 hc
    exact ⟨this.1, this.2.trans ih.2⟩

/-! ### Valid calls on a queue that satisfies the invariant -/

theorem enqueue_of_inv {rb : so_ring_buffer_t P} (h : Inv rb) (sizeof_pkt : Nat) (x : P)
    (wakes : List (so_ring_buffer_t P)) (hlen : rb.len ≠ rb.cap) :
    ring_buffer_enqueue sizeof_pkt (some rb) (some x) sizeof_pkt wakes =
      .ret (to_ssize_t sizeof_pkt)
        (some { rb with
                data := rb.data.set rb.write_pos x
                write_pos := (rb.write_pos + 1) % rb.cap
                len := rb.len + 1 }) := by
  simp [ring_buffer_enqueue, enqueue_locked_of_inv h x sizeof_pkt wakes hlen]

theorem dequeue_of_inv {rb : so_ring_buffer_t P} (h : Inv rb) (sizeof_pkt : Nat) (buf : P)
    (wakes : List (so_ring_buffer_t P)) (hlen : rb.len ≠ 0) :
    ring_buffer_dequeue sizeof_pkt (some rb) (some buf) sizeof_pkt wakes =
      .ret (to_ssize_t sizeof_pkt)
        (some { rb with
                read_pos := (rb.read_pos + 1) % rb.cap
                len := rb.len - 1 },
         some (rb.data.get ⟨rb.read_pos, by rw [h.data_len]; exact h.read_lt⟩)) := by
  simp [ring_buffer_dequeue, dequeue_locked_of_inv h buf sizeof_pkt wakes hlen]

theorem enqueue_full_running (sizeof_pkt : Nat) (rb : so_ring_buffer_t P) (x : P)
    (hlen : rb.len = rb.cap) (hstop : rb.stop = 0) :
    ring_buffer_enqueue sizeof_pkt (some rb) (some x) sizeof_pkt [] = .wait := by
  simp [ring_buffer_enqueue, enqueue_locked, hlen, hstop]

theorem dequeue_empty_running (sizeof_pkt : Nat) (rb : so_ring_buffer_t P) (buf : P)
    (hlen : rb.len = 0) (hstop : rb.stop = 0) :
    ring_buffer_dequeue sizeof_pkt (some rb) (some buf) sizeof_pkt [] = .wait := by
  simp [ring_buffer_dequeue, dequeue_locked, hlen, hstop]

theorem enqueue_full_stopped (sizeof_pkt : Nat) (rb : so_ring_buffer_t P) (x : P)
    (wakes : List (so_ring_buffer_t P)) (hlen : rb.len = rb.cap) (hstop : rb.stop ≠ 0) :
    ring_buffer_enqueue sizeof_pkt (some rb) (some x) sizeof_pkt wakes =
      .ret (-1) (some rb) := by
  simp [ring_buffer_enqueue, enqueue_locked_full_stopped x sizeof_pkt rb wakes hlen hstop]

theorem dequeue_empty_stopped (sizeof_pkt : Nat) (rb : so_ring_buffer_t P) (buf : P)
    (wakes : List (so_ring_buffer_t P)) (hlen : rb.len = 0) (hstop : rb.stop ≠ 0) :
    ring_buffer_dequeue sizeof_pkt (some rb) (some buf) sizeof_pkt wakes =
      .ret (-1) (some rb, some buf) := by
  simp [ring_buffer_dequeue, dequeue_locked_empty_stopped buf sizeof_pkt rb wakes hlen hstop]

theorem to_ssize_t_nonneg {n : Nat} (h : n < 2 ^ 63) : ¬ to_ssize_t n < 0 := by
  rw [to_ssize_t_of_lt h]
  omega

theorem fifo_run_enqueued (cap : Nat) (ops : List (Op P)) :
    ∀ (q outs q' : List P), fifo_run cap q ops = some (outs, q') →
      q ++ enqueued ops = outs ++ q' := by
  induction ops with
  | nil =>
    intro q outs q' h
    simp only [fifo_run, Option.some.injEq, Prod.mk.injEq] at h
    obtain ⟨rfl, rfl⟩ := h
    simp [enqueued]
  | cons op ops ih =>
    intro q outs q' h
    cases op with
    | enq x =>
      by_cases hq : q.length < cap
      · simp only [fifo_run, hq, if_true] at h
        have := ih _ _ _ h
        simpa [enqueued] using this
      · simp [fifo_run, hq] at h
    | deq =>
      cases q with
      | nil => simp [fifo_run] at h
      | cons r q =>
        simp only [fifo_run, Option.map_eq_some', Prod.mk.injEq] at h
        obtain ⟨⟨o1, q1⟩, h1, rfl, rfl⟩ := h
        have := ih _ _ _ h1
        simp [enqueued, this]

theorem run_ops_refines [Inhabited P] (sizeof_pkt : Nat) (hsz : sizeof_pkt < 2 ^ 63)
    (ops : List (Op P)) :
    ∀ rb : so_ring_buffer_t P, Inv rb →
      (run_ops sizeof_pkt rb ops).map (fun p => (p.1, contents p.2)) =
        fifo_run rb.cap (contents rb) ops := by
  induction ops with
  | nil => intro rb _; simp [run_ops, fifo_run]
  | cons op ops ih =>
    intro rb h
    have hle := h.len_le
    cases op with
    | enq x =>
      by_cases hfull : rb.len = rb.cap
      · have hf : fifo_run rb.cap (contents rb) (Op.enq x :: ops) = none := by
          simp [fifo_run, contents_length, hfull]
        rw [hf]
        by_cases hstop : rb.stop = 0
        · simp [run_ops, enqueue_full_running sizeof_pkt rb x hfull hstop]
        · simp [run_ops, enqueue_full_stopped sizeof_pkt rb x [] hfull hstop]
      · have hlt : rb.len < rb.cap := by omega
        simp only [run_ops, enqueue_of_inv h sizeof_pkt x [] hfull,
          to_ssize_t_nonneg hsz, if_false, fifo_run, contents_length, hlt, if_true]
        rw [ih _ (inv_enqueue h x hfull), contents_enqueue h x hfull]
    | deq =>
      by_cases hempty : rb.len = 0
      · have hf : fifo_run rb.cap (contents rb) (Op.deq :: ops) = none := by
          simp [fifo_run, contents, hempty]
        rw [hf]
        by_cases hstop : rb.stop = 0
        · simp [run_ops, dequeue_empty_running sizeof_pkt rb default hempty hstop]
        · simp [run_ops, dequeue_empty_stopped sizeof_pkt rb default [] hempty hstop]
      · simp only [run_ops, dequeue_of_inv h sizeof_pkt default [] hempty,
          to_ssize_t_nonneg hsz, if_false]
        rw [contents_dequeue h hempty]
        simp only [fifo_run, Option.map_map]
        rw [← ih _ (inv_dequeue h hempty)]
        simp only [Option.map_map]
        rfl

theorem contents_init [Inhabited P] {ring_null : Bool} {cap : Nat} {env : InitEnv} {c : Int}
    {rb : so_ring_buffer_t P} (h : ring_buffer_init ring_null cap env = (c, some rb)) :
    contents rb = [] ∧ rb.cap = cap := by
  obtain ⟨_, _, _, rfl⟩ := init_success h
  simp [contents]

theorem enqueue_locked_no_fault (x : P) (size : Nat) :
    ∀ (wakes : List (so_ring_buffer_t P)) (ring : so_ring_buffer_t P), Inv ring →
      (∀ w ∈ wakes, Inv w) → enqueue_locked x size ring wakes ≠ .fault := by
  intro wakes
  induction wakes with
  | nil =>
    intro ring h _
    by_cases hfull : ring.len = ring.cap
    · by_cases hstop : ring.stop = 0 <;> simp [enqueue_locked, hfull, hstop]
    · rw [enqueue_locked_of_inv h x size [] hfull]; simp
  | cons w ws ih =>
    intro ring h hw
    by_cases hfull : ring.len = ring.cap
    · by_cases hstop : ring.stop = 0
      · simp only [enqueue_locked, hfull, hstop, if_true, ne_eq, not_true_eq_false, if_false]
        exact ih w (hw w (List.mem_cons_self _ _)) (fun u hu => hw u (List.mem_cons_of_mem _ hu))
      · simp [enqueue_locked, hfull, hstop]
    · rw [enqueue_locked_of_inv h x size _ hfull]; simp

theorem dequeue_locked_no_fault (out : P) (size : Nat) :
    ∀ (wakes : List (so_ring_buffer_t P)) (ring : so_ring_buffer_t P), Inv ring →
      (∀ w ∈ wakes, Inv w) → dequeue_locked out size ring wakes ≠ .fault := by
  intro wakes
  induction wakes with
  | nil =>
    intro ring h _
    by_cases hempty : ring.len = 0
    · by_cases hstop : ring.stop = 0 <;> simp [dequeue_locked, hempty, hstop]
    · rw [dequeue_locked_of_inv h out size [] hempty]; simp
  | cons w ws ih =>
    intro ring h hw
    by_cases hempty : ring.len = 0
    · by_cases hstop : ring.stop = 0
      · simp only [dequeue_locked, hempty, hstop, if_true, ne_eq, not_true_eq_false, if_false]
        exact ih w (hw w (List.mem_cons_self _ _)) (fun u hu => hw u (List.mem_cons_of_mem _ hu))
      · simp [dequeue_locked, hempty, hstop]
    · rw [dequeue_locked_of_inv h out size _ hempty]; simp

theorem enqueue_no_fault (sizeof_pkt : Nat) (rb : so_ring_buffer_t P) (h : Inv rb)
    (data : Option P) (size : Nat) (wakes : List (so_ring_buffer_t P))
    (hw : ∀ w ∈ wakes, Inv w) :
    ring_buffer_enqueue sizeof_pkt (some rb) data size wakes ≠ .fault := by
  cases data with
  | none => simp [ring_buffer_enqueue]
  | some x =>
    have := enqueue_locked_no_fault x size wakes rb h hw
    simp only [ring_buffer_enqueue]
    split_ifs
    · simp
    · cases hl : enqueue_locked x size rb wakes <;> simp_all

theorem dequeue_no_fault (sizeof_pkt : Nat) (rb : so_ring_buffer_t P) (h : Inv rb)
    (data : Option P) (size : Nat) (wakes : List (so_ring_buffer_t P))
    (hw : ∀ w ∈ wakes, Inv w) :
    ring_buffer_dequeue sizeof_pkt (some rb) data size wakes ≠ .fault := by
  cases data with
  | none => simp [ring_buffer_dequeue]
  | some x =>
    have := dequeue_locked_no_fault x size wakes rb h hw
    simp only [ring_buffer_dequeue]
    split_ifs
    · simp
    · cases hl : dequeue_locked x size rb wakes <;> simp_all

theorem inv_set_stop {rb : so_ring_buffer_t P} (h : Inv rb) (s : Int) :
    Inv { rb with stop := s } :=
  ⟨h.data_len, h.cap_pos, h.cap_lt, h.read_lt, h.write_lt, h.len_le, h.write_eq⟩

theorem contents_set_stop [Inhabited P] (rb : so_ring_buffer_t P) (s : Int) :
    contents { rb with stop := s } = contents rb := rfl

theorem drain_observed [Inhabited P] (sizeof_pkt : Nat) (buf : P) :
    ∀ (n : Nat) (rb : so_ring_buffer_t P), Inv rb → rb.len = n →
      (dequeue_seq sizeof_pkt buf n rb).map observed =
        (contents rb).map (fun r => some (to_ssize_t sizeof_pkt, some r)) := by
  intro n
  induction n with
  | zero =>
    intro rb _ hn
    simp [dequeue_seq, contents, hn]
  | succ n ih =>
    intro rb h hn
    have hne : rb.len ≠ 0 := by omega
    rw [contents_dequeue h hne]
    simp only [dequeue_seq, dequeue_of_inv h sizeof_pkt buf [] hne, List.map_cons, observed]
    rw [ih _ (inv_dequeue h hne) (by show rb.len - 1 = n; omega)]

theorem drain_then_abort [Inhabited P] (sizeof_pkt : Nat) (buf : P) :
    ∀ (n : Nat) (rb : so_ring_buffer_t P), Inv rb → rb.len = n → rb.stop ≠ 0 →
      (dequeue_seq sizeof_pkt buf (n + 1) rb).map observed =
        (contents rb).map (fun r => some (to_ssize_t sizeof_pkt, some r)) ++
          [some (-1, some buf)] := by
  intro n
  induction n with
  | zero =>
    intro rb _ hn hs
    simp [dequeue_seq, contents, hn, dequeue_empty_stopped sizeof_pkt rb buf [] hn hs, observed]
  | succ n ih =>
    intro rb h hn hs
    have hne : rb.len ≠ 0 := by omega
    rw [contents_dequeue h hne]
    rw [dequeue_seq]
    simp only [dequeue_of_inv h sizeof_pkt buf [] hne, List.map_cons, observed, List.cons_append]
    rw [ih _ (inv_dequeue h hne) (by show rb.len - 1 = n; omega) hs]

theorem drain_stop_commute (sizeof_pkt : Nat) (buf : P) :
    ∀ (n : Nat) (rb : so_ring_buffer_t P), Inv rb → n ≤ rb.len →
      dequeue_seq sizeof_pkt buf n { rb with stop := 1 } =
        (dequeue_seq sizeof_pkt buf n rb).map stop_after := by
  intro n
  induction n with
  | zero => intro rb _ _; simp [dequeue_seq]
  | succ n ih =>
    intro rb h hn
    have hne : rb.len ≠ 0 := by omega
    have h1 := inv_set_stop h 1
    rw [dequeue_seq, dequeue_seq]
    simp only [dequeue_of_inv h sizeof_pkt buf [] hne,
      dequeue_of_inv h1 sizeof_pkt buf [] hne, List.map_cons, stop_after, ring_buffer_stop]
    rw [← ih _ (inv_dequeue h hne) (by show n ≤ rb.len - 1; omega)]

theorem enqueue_locked_wait_iff (x : P) (size : Nat) (ring : so_ring_buffer_t P) :
    enqueue_locked x size ring [] = .wait ↔ ring.len = ring.cap ∧ ring.stop = 0 := by
  by_cases hfull : ring.len = ring.cap
  · by_cases hstop : ring.stop = 0 <;> simp [enqueue_locked, hfull, hstop]
  · by_cases hw : ring.write_pos < ring.data.length ∧ ring.cap ≠ 0 <;>
      simp [enqueue_locked, hfull, hw]

theorem dequeue_locked_wait_iff (out : P) (size : Nat) (ring : so_ring_buffer_t P) :
    dequeue_locked out size ring [] = .wait ↔ ring.len = 0 ∧ ring.stop = 0 := by
  by_cases hempty : ring.len = 0
  · by_cases hstop : ring.stop = 0 <;> simp [dequeue_locked, hempty, hstop]
  · simp only [dequeue_locked, hempty, if_false, false_and, iff_false]
    cases ring.data[ring.read_pos]? with
    | none => simp
    | some y => by_cases hc : ring.cap = 0 <;> simp [hc]

theorem enqueue_locked_wakes_irrelevant (x : P) (size : Nat) (ring : so_ring_buffer_t P)
    (wakes : List (so_ring_buffer_t P)) (h : ¬ (ring.len = ring.cap ∧ ring.stop = 0)) :
    enqueue_locked x size ring wakes = enqueue_locked x size ring [] := by
  cases wakes with
  | nil => rfl
  | cons w ws =>
    by_cases hfull : ring.len = ring.cap
    · have hstop : ring.stop ≠ 0 := fun hs => h ⟨hfull, hs⟩
      simp [enqueue_locked, hfull, hstop]
    · simp [enqueue_locked, hfull]

theorem dequeue_locked_wakes_irrelevant (out : P) (size : Nat) (ring : so_ring_buffer_t P)
    (wakes : List (so_ring_buffer_t P)) (h : ¬ (ring.len = 0 ∧ ring.stop = 0)) :
    dequeue_locked out size ring wakes = dequeue_locked out size ring [] := by
  cases wakes with
  | nil => rfl
  | cons w ws =>
    by_cases hempty : ring.len = 0
    · have hstop : ring.stop ≠ 0 := fun hs => h ⟨hempty, hs⟩
      simp [dequeue_locked, hempty, hstop]
    · simp [dequeue_locked, hempty]

theorem enqueue_all_of_inv (sizeof_pkt : Nat) [Inhabited P] :
    ∀ (rs : List P) (rb : so_ring_buffer_t P), Inv rb → rb.len + rs.length ≤ rb.cap →
      ∃ q, enqueue_all sizeof_pkt rb rs = some q ∧ Inv q ∧ contents q = contents rb ++ rs ∧
        q.cap = rb.cap ∧ q.stop = rb.stop ∧ q.len = rb.len + rs.length := by
  intro rs
  induction rs with
  | nil => intro rb h _; exact ⟨rb, rfl, h, by simp, rfl, rfl, rfl⟩
  | cons r rs ih =>
    intro rb h hlen
    simp only [List.length_cons] at hlen
    have hne : rb.len ≠ rb.cap := by omega
    obtain ⟨q, hq, hinv, hc, hcap, hstop, hl⟩ :=
      ih _ (inv_enqueue h r hne) (by show rb.len + 1 + rs.length ≤ rb.cap; omega)
    refine ⟨q, ?_, hinv, ?_, hcap, hstop, ?_⟩
    · simp only [enqueue_all, enqueue_of_inv h sizeof_pkt r [] hne, if_true]
      exact hq
    · rw [hc, contents_enqueue h r hne]; simp
    · rw [hl]; simp only [List.length_cons]; omega

/-! ### Two reachable queues of natural numbers -/

theorem reachable_example : Reachable 256 2 (⟨[30, 20], 1, 1, 2, 2, 0⟩ : so_ring_buffer_t Nat) := by
  have h0 : Reachable 256 2 (⟨[0, 0], 0, 0, 0, 2, 0⟩ : so_ring_buffer_t Nat) :=
    Reachable.init env_ok _ (by decide)
  have h1 : Reachable 256 2 (⟨[10, 0], 0, 1, 1, 2, 0⟩ : so_ring_buffer_t Nat) :=
    Reachable.enqueue _ _ (some 10) 256 256 h0 (by decide)
  have h2 : Reachable 256 2 (⟨[10, 20], 0, 0, 2, 2, 0⟩ : so_ring_buffer_t Nat) :=
    Reachable.enqueue _ _ (some 20) 256 256 h1 (by decide)
  have h3 : Reachable 256 2 (⟨[10, 20], 1, 0, 1, 2, 0⟩ : so_ring_buffer_t Nat) :=
    Reachable.dequeue _ _ (some 0) (some 10) 256 256 h2 (by decide)
  exact Reachable.enqueue _ _ (some 30) 256 256 h3 (by decide)

theorem reachable_single : Reachable 256 1 (⟨[7], 0, 0, 1, 1, 0⟩ : so_ring_buffer_t Nat) :=
  Reachable.enqueue _ _ (some 7) 256 256 (Reachable.init env_ok ⟨[0], 0, 0, 0, 1, 0⟩ (by decide))
    (by decide)

/-! ### Stop flag, argument checks, formatting and the worker loop -/

theorem enqueue_locked_stop_eq {x : P} {size : Nat} {ring r' : so_ring_buffer_t P} {v : Int}
    (h : enqueue_locked x size ring [] = .ret v r') : r'.stop = ring.stop := by
  by_cases hfull : ring.len = ring.cap
  · by_cases hstop : ring.stop = 0
    · simp [enqueue_locked, hfull, hstop] at h
    · rw [enqueue_locked_full_stopped x size ring [] hfull hstop] at h
      simp only [Call.ret.injEq] at h
      rw [← h.2]
  · by_cases hw : ring.write_pos < ring.data.length ∧ ring.cap ≠ 0
    · rw [enqueue_locked_insert x size ring [] hfull hw.1 hw.2] at h
      simp only [Call.ret.injEq] at h
      rw [← h.2]
    · simp [enqueue_locked, hfull, hw] at h

theorem dequeue_locked_stop_eq {out o' : P} {size : Nat} {ring r' : so_ring_buffer_t P}
    {v : Int} (h : dequeue_locked out size ring [] = .ret v (r', o')) : r'.stop = ring.stop := by
  by_cases hempty : ring.len = 0
  · by_cases hstop : ring.stop = 0
    · simp [dequeue_locked, hempty, hstop] at h
    · rw [dequeue_locked_empty_stopped out size ring [] hempty hstop] at h
      simp only [Call.ret.injEq, Prod.mk.injEq] at h
      rw [← h.2.1]
  · by_cases hr : ring.read_pos < ring.data.length
    · by_cases hc : ring.cap = 0
      · simp [dequeue_locked, hempty, hc, List.getElem?_eq_getElem hr] at h
      · rw [dequeue_locked_remove out size ring [] hempty hr hc] at h
        simp only [Call.ret.injEq, Prod.mk.injEq] at h
        rw [← h.2.1]
    · have hn : ring.data[ring.read_pos]? = none := List.getElem?_eq_none (by omega)
      simp [dequeue_locked, hempty, hn] at h

theorem step_stop {sizeof_pkt : Nat} {rb rb' : so_ring_buffer_t P}
    (h : Step sizeof_pkt rb rb') : rb'.stop = rb.stop ∨ rb'.stop = 1 := by
  cases h with
  | enqueue data size v hc =>
    left
    cases data with
    | none => simp [ring_buffer_enqueue] at hc; rw [← hc.2]
    | some x =>
      by_cases hs : size = sizeof_pkt
      · simp only [ring_buffer_enqueue, hs, ne_eq, not_true_eq_false, if_false] at hc
        cases hl : enqueue_locked x sizeof_pkt rb [] with
        | ret v1 r1 =>
          rw [hl] at hc
          simp only [Call.ret.injEq, Option.some.injEq] at hc
          rw [← hc.2]; exact enqueue_locked_stop_eq hl
        | wait => rw [hl] at hc; cases hc
        | fault => rw [hl] at hc; cases hc
      · simp [ring_buffer_enqueue, hs] at hc; rw [← hc.2]
  | dequeue data out size v hc =>
    left
    cases data with
    | none => simp [ring_buffer_dequeue] at hc; rw [← hc.2.1]
    | some x =>
      by_cases hs : size = sizeof_pkt
      · simp only [ring_buffer_dequeue, hs, ne_eq, not_true_eq_false, if_false] at hc
        cases hl : dequeue_locked x sizeof_pkt rb [] with
        | ret v1 p1 =>
          obtain ⟨r1, o1⟩ := p1
          rw [hl] at hc
          simp only [Call.ret.injEq, Prod.mk.injEq, Option.some.injEq] at hc
          rw [← hc.2.1]; exact dequeue_locked_stop_eq hl
        | wait => rw [hl] at hc; cases hc
        | fault => rw [hl] at hc; cases hc
      · simp [ring_buffer_dequeue, hs] at hc; rw [← hc.2.1]
  | stop hc =>
    right
    simp [ring_buffer_stop] at hc
    rw [← hc]

theorem enqueue_post_some {sizeof_pkt : Nat} {rb : so_ring_buffer_t P} {data : Option P}
    {size : Nat} {wakes : List (so_ring_buffer_t P)} {v : Int}
    {post : Option (so_ring_buffer_t P)}
    (h : ring_buffer_enqueue sizeof_pkt (some rb) data size wakes = .ret v post) :
    ∃ rb', post = some rb' := by
  cases data with
  | none => simp [ring_buffer_enqueue] at h; exact ⟨rb, h.2.symm⟩
  | some x =>
    by_cases hs : size = sizeof_pkt
    · simp only [ring_buffer_enqueue, hs, ne_eq, not_true_eq_false, if_false] at h
      cases hl : enqueue_locked x sizeof_pkt rb wakes with
      | ret v1 r1 => rw [hl] at h; simp at h; exact ⟨r1, h.2.symm⟩
      | wait => rw [hl] at h; cases h
      | fault => rw [hl] at h; cases h
    · simp [ring_buffer_enqueue, hs] at h; exact ⟨rb, h.2.symm⟩

theorem dequeue_post_some {sizeof_pkt : Nat} {rb : so_ring_buffer_t P} {data : Option P}
    {size : Nat} {wakes : List (so_ring_buffer_t P)} {v : Int}
    {post : Option (so_ring_buffer_t P)} {out : Option P}
    (h : ring_buffer_dequeue sizeof_pkt (some rb) data size wakes = .ret v (post, out)) :
    ∃ rb', post = some rb' := by
  cases data with
  | none => simp [ring_buffer_dequeue] at h; exact ⟨rb, h.2.1.symm⟩
  | some x =>
    by_cases hs : size = sizeof_pkt
    · simp only [ring_buffer_dequeue, hs, ne_eq, not_true_eq_false, if_false] at h
      cases hl : dequeue_locked x sizeof_pkt rb wakes with
      | ret v1 p1 =>
        obtain ⟨r1, o1⟩ := p1
        rw [hl] at h; simp at h; exact ⟨r1, h.2.1.symm⟩
      | wait => rw [hl] at h; cases h
      | fault => rw [hl] at h; cases h
    · simp [ring_buffer_dequeue, hs] at h; exact ⟨rb, h.2.1.symm⟩

theorem enqueue_invalid (sizeof_pkt : Nat) (ring : Option (so_ring_buffer_t P))
    (data : Option P) (size : Nat) (wakes : List (so_ring_buffer_t P))
    (h : ring = none ∨ data = none ∨ size ≠ sizeof_pkt) :
    ring_buffer_enqueue sizeof_pkt ring data size wakes = .ret (-1) ring := by
  cases ring with
  | none => simp [ring_buffer_enqueue]
  | some r =>
    cases data with
    | none => simp [ring_buffer_enqueue]
    | some x =>
      have hs : size ≠ sizeof_pkt := by simpa using h
      simp [ring_buffer_enqueue, hs]

theorem dequeue_invalid (sizeof_pkt : Nat) (ring : Option (so_ring_buffer_t P))
    (data : Option P) (size : Nat) (wakes : List (so_ring_buffer_t P))
    (h : ring = none ∨ data = none ∨ size ≠ sizeof_pkt) :
    ring_buffer_dequeue sizeof_pkt ring data size wakes = .ret (-1) (ring, data) := by
  cases ring with
  | none => simp [ring_buffer_dequeue]
  | some r =>
    cases data with
    | none => simp [ring_buffer_dequeue]
    | some x =>
      have hs : size ≠ sizeof_pkt := by simpa using h
      simp [ring_buffer_dequeue, hs]

theorem toDigits_length_le (b : Nat) (hb : 2 ≤ b) (n e : Nat) (hlt : n < b ^ e) (he : 0 < e) :
    (Nat.toDigits b n).length ≤ e :=
  Nat.toDigitsCore_length b hb (n + 1) n e hlt he

theorem fmt_016lx_length {h : Nat} (hh : h < 2 ^ 64) : (fmt_016lx h).length = 16 := by
  have := toDigits_length_le 16 (by norm_num) h 16 (by norm_num; omega) (by norm_num)
  simp only [fmt_016lx, List.length_append, List.length_replicate]
  omega

theorem fmt_lu_length {t : Nat} (ht : t < 2 ^ 64) : (fmt_lu t).length ≤ 20 := by
  have := toDigits_length_le 10 (by norm_num) t 20 (by norm_num; omega) (by norm_num)
  simpa [fmt_lu] using this

theorem format_line_length (tok : List Char) (h t : Nat) :
    (format_line tok h t).length =
      tok.length + (fmt_016lx h).length + (fmt_lu t).length + 3 := by
  simp [format_line]
  omega

theorem toDigitsCore_mem (q : Char → Prop) (hq : ∀ m, m < 16 → q (Nat.digitChar m)) :
    ∀ (f n : Nat) (ds : List Char), (∀ c ∈ ds, q c) →
      ∀ c ∈ Nat.toDigitsCore 16 f n ds, q c := by
  intro f
  induction f with
  | zero => intro n ds hds c hc; simpa [Nat.toDigitsCore] using hds c hc
  | succ f ih =>
    intro n ds hds c hc
    have hd : ∀ c ∈ Nat.digitChar (n % 16) :: ds, q c := by
      intro c hc
      rcases List.mem_cons.mp hc with rfl | h
      · exact hq _ (Nat.mod_lt _ (by norm_num))
      · exact hds c h
    simp only [Nat.toDigitsCore] at hc
    split_ifs at hc
    · exact hd c hc
    · exact ih _ _ hd c hc

theorem digitChar_lower_hex : ∀ m, m < 16 → Nat.digitChar m ∈ "0123456789abcdef".toList := by
  decide

theorem fmt_016lx_chars (h : Nat) : ∀ c ∈ fmt_016lx h, c ∈ "0123456789abcdef".toList := by
  intro c hc
  simp only [fmt_016lx, List.mem_append] at hc
  rcases hc with hc | hc
  · rw [(List.mem_replicate.mp hc).2]; decide
  · exact toDigitsCore_mem (fun c => c ∈ "0123456789abcdef".toList) digitChar_lower_hex
      _ _ [] (by simp) c hc

theorem toDigitsCore_append (b : Nat) :
    ∀ (f n : Nat) (ds : List Char),
      Nat.toDigitsCore b f n ds = Nat.toDigitsCore b f n [] ++ ds := by
  intro f
  induction f with
  | zero => intro n ds; simp [Nat.toDigitsCore]
  | succ f ih =>
    intro n ds
    simp only [Nat.toDigitsCore]
    split_ifs
    · simp
    · rw [ih _ (Nat.digitChar (n % b) :: ds), ih _ [Nat.digitChar (n % b)]]
      simp

theorem hex_digit_value : ∀ m, m < 16 →
    (if (Nat.digitChar m).toNat < 58 then (Nat.digitChar m).toNat - 48
      else (Nat.digitChar m).toNat - 87) = m := by
  decide

theorem hex_value_append (cs : List Char) (c : Char) :
    hex_value (cs ++ [c]) =
      16 * hex_value cs + (if c.toNat < 58 then c.toNat - 48 else c.toNat - 87) := by
  simp [hex_value, List.foldl_append]

theorem hex_value_toDigitsCore :
    ∀ (f n : Nat), n < f → hex_value (Nat.toDigitsCore 16 f n []) = n := by
  intro f
  induction f with
  | zero => intro n hn; omega
  | succ f ih =>
    intro n hn
    simp only [Nat.toDigitsCore]
    split_ifs with h0
    · have : n < 16 := by omega
      simp only [hex_value, List.foldl_cons, List.foldl_nil, Nat.mul_zero, Nat.zero_add]
      rw [hex_digit_value _ (Nat.mod_lt _ (by norm_num))]
      omega
    · rw [toDigitsCore_append, hex_value_append, ih (n / 16) (by omega),
        hex_digit_value _ (Nat.mod_lt _ (by norm_num))]
      omega

theorem hex_value_zeros (k : Nat) (cs : List Char) :
    hex_value (List.replicate k '0' ++ cs) = hex_value cs := by
  induction k with
  | zero => simp
  | succ k ih =>
    simp only [hex_value, List.replicate_succ, List.cons_append, List.foldl_cons] at ih ⊢
    exact ih

theorem hex_value_fmt (h : Nat) : hex_value (fmt_016lx h) = h := by
  rw [fmt_016lx, hex_value_zeros]
  exact hex_value_toDigitsCore (h + 1) h (by omega)

theorem size_mod_eq : SIZE_MOD = 2 ^ 64 := rfl

theorem result_line_fits {lib : PacketLib P} {sizeof_pkt : Nat}
    (hlib : lib.WellFormed sizeof_pkt) (pkt : P) :
    (result_line lib pkt).length < lib.PKT_SZ := by
  have h1 : (fmt_016lx (lib.packet_hash pkt % SIZE_MOD)).length = 16 :=
    fmt_016lx_length (by rw [← size_mod_eq]; exact Nat.mod_lt _ (by decide))
  have h2 : (fmt_lu (lib.timestamp pkt % SIZE_MOD)).length ≤ 20 :=
    fmt_lu_length (by rw [← size_mod_eq]; exact Nat.mod_lt _ (by decide))
  have h3 := hlib.token_fits (lib.process_packet pkt)
  rw [result_line, format_line_length]
  omega

theorem out_buf_take (line : List Char) (n : Nat) (h : line.length < n) :
    (line.take (n - 1) ++ [Char.ofNat 0]).take line.length = line := by
  rw [List.take_of_length_le (by omega : line.length ≤ n - 1)]
  simp

theorem dequeue_locked_cases (out : P) (size : Nat) :
    ∀ (wakes : List (so_ring_buffer_t P)) (ring : so_ring_buffer_t P),
      dequeue_locked out size ring wakes = .wait ∨
      dequeue_locked out size ring wakes = .fault ∨
      (∃ r', dequeue_locked out size ring wakes = .ret (-1) (r', out) ∧
        r'.stop ≠ 0 ∧ r'.len = 0) ∨
      (∃ r' o', dequeue_locked out size ring wakes = .ret (to_ssize_t size) (r', o')) := by
  intro wakes
  induction wakes with
  | nil =>
    intro ring
    by_cases hempty : ring.len = 0
    · by_cases hstop : ring.stop = 0
      · left; simp [dequeue_locked, hempty, hstop]
      · right; right; left
        exact ⟨ring, dequeue_locked_empty_stopped out size ring [] hempty hstop, hstop, hempty⟩
    · by_cases hr : ring.read_pos < ring.data.length
      · by_cases hc : ring.cap = 0
        · right; left
          simp [dequeue_locked, hempty, hc, List.getElem?_eq_getElem hr]
        · right; right; right
          exact ⟨_, _, dequeue_locked_remove out size ring [] hempty hr hc⟩
      · right; left
        have hn : ring.data[ring.read_pos]? = none := List.getElem?_eq_none (by omega)
        simp [dequeue_locked, hempty, hn]
  | cons w ws ih =>
    intro ring
    by_cases hempty : ring.len = 0
    · by_cases hstop : ring.stop = 0
      · have e : dequeue_locked out size ring (w :: ws) = dequeue_locked out size w ws := by
          simp [dequeue_locked, hempty, hstop]
        rw [e]; exact ih w
      · right; right; left
        exact ⟨ring, dequeue_locked_empty_stopped out size ring _ hempty hstop, hstop, hempty⟩
    · rw [dequeue_locked_wakes_irrelevant out size ring (w :: ws) (fun h => hempty h.1)]
      by_cases hr : ring.read_pos < ring.data.length
      · by_cases hc : ring.cap = 0
        · right; left
          simp [dequeue_locked, hempty, hc, List.getElem?_eq_getElem hr]
        · right; right; right
          exact ⟨_, _, dequeue_locked_remove out size ring [] hempty hr hc⟩
      · right; left
        have hn : ring.data[ring.read_pos]? = none := List.getElem?_eq_none (by omega)
        simp [dequeue_locked, hempty, hn]

theorem dequeue_valid_cases (sizeof_pkt : Nat) (ring : so_ring_buffer_t P) (buf : P)
    (wakes : List (so_ring_buffer_t P)) :
    ring_buffer_dequeue sizeof_pkt (some ring) (some buf) sizeof_pkt wakes = .wait ∨
    ring_buffer_dequeue sizeof_pkt (some ring) (some buf) sizeof_pkt wakes = .fault ∨
    (∃ r', ring_buffer_dequeue sizeof_pkt (some ring) (some buf) sizeof_pkt wakes =
        .ret (-1) (some r', some buf) ∧ r'.stop ≠ 0 ∧ r'.len = 0) ∨
    (∃ r' b', ring_buffer_dequeue sizeof_pkt (some ring) (some buf) sizeof_pkt wakes =
        .ret (to_ssize_t sizeof_pkt) (some r', some b')) := by
  rcases dequeue_locked_cases buf sizeof_pkt wakes ring with h | h | ⟨r', h, hs, hl⟩ | ⟨r', b', h⟩
  · left; simp [ring_buffer_dequeue, h]
  · right; left; simp [ring_buffer_dequeue, h]
  · right; right; left; exact ⟨r', by simp [ring_buffer_dequeue, h], hs, hl⟩
  · right; right; right; exact ⟨r', b', by simp [ring_buffer_dequeue, h]⟩

theorem iteration_aborted (lib : PacketLib P) (sizeof_pkt : Nat) (env : IterEnv P)
    (w : Worker P) (r' : so_ring_buffer_t P) (b' : P) (hstop : r'.stop ≠ 0)
    (hd : ring_buffer_dequeue sizeof_pkt (some w.ring) (some w.buffer) lib.PKT_SZ env.wakes =
      .ret (-1) (some r', some b')) :
    consumer_iteration lib sizeof_pkt env w =
      (.leave ⟨r', b', w.sink⟩,
        ring_buffer_dequeue_events sizeof_pkt (some w.ring) (some w.buffer) lib.PKT_SZ
          env.wakes ++ [.stop_read]) := by
  simp [consumer_iteration, hd, hstop]

theorem iteration_delivered {lib : PacketLib P} {sizeof_pkt : Nat}
    (hlib : lib.WellFormed sizeof_pkt) (env : IterEnv P)
    (w : Worker P) (r' : so_ring_buffer_t P) (b' : P) (v : Int) (hv : 0 < v)
    (hd : ring_buffer_dequeue sizeof_pkt (some w.ring) (some w.buffer) lib.PKT_SZ env.wakes =
      .ret v (some r', some b')) :
    consumer_iteration lib sizeof_pkt env w =
      if env.snprintf_fails = true then
        (.again ⟨r', b', w.sink⟩,
          ring_buffer_dequeue_events sizeof_pkt (some w.ring) (some w.buffer) lib.PKT_SZ
            env.wakes)
      else
        (.again ⟨r', b', w.sink ++ env.write_result.appended (result_line lib b')⟩,
          ring_buffer_dequeue_events sizeof_pkt (some w.ring) (some w.buffer) lib.PKT_SZ
            env.wakes ++ [.file_lock, .sink_write (result_line lib b'), .file_unlock]) := by
  have hfit := result_line_fits hlib b'
  have hpos : ¬ v ≤ 0 := by omega
  have hlen : ¬ ((result_line lib b').length : Int) ≤ 0 := by
    have : 0 < (result_line lib b').length := by
      rw [result_line, format_line_length]; omega
    omega
  by_cases hf : env.snprintf_fails = true
  · simp [consumer_iteration, hd, hpos, hf]
  · have hnf : ¬ lib.PKT_SZ < (result_line lib b').length := by omega
    have hne : result_line lib b' ≠ [] := by
      intro h0; rw [h0] at hlen; simp at hlen
    simp only [consumer_iteration, hd, hpos, hf, if_false, hlen, hnf,
      out_buf_take _ _ hfit]
    simp [hne]

theorem file_events_append (es fs : List Event) :
    file_events (es ++ fs) = file_events es ++ file_events fs := by
  simp [file_events]

theorem file_events_dequeue_locked :
    ∀ (wakes : List (so_ring_buffer_t P)) (ring : so_ring_buffer_t P),
      file_events (dequeue_locked_events ring wakes) = [] := by
  intro wakes
  induction wakes with
  | nil =>
    intro ring
    unfold dequeue_locked_events
    split_ifs <;> simp [file_events]
  | cons w ws ih =>
    intro ring
    unfold dequeue_locked_events
    split_ifs
    · simp [file_events]
    · have := ih w
      simp only [file_events] at this
      simp [file_events, this]
    · simp [file_events]

theorem file_events_dequeue (sizeof_pkt : Nat) (ring : Option (so_ring_buffer_t P))
    (data : Option P) (size : Nat) (wakes : List (so_ring_buffer_t P)) :
    file_events (ring_buffer_dequeue_events sizeof_pkt ring data size wakes) = [] := by
  unfold ring_buffer_dequeue_events
  split
  · split_ifs
    · simp [file_events]
    · have := file_events_dequeue_locked wakes (by assumption)
      simp only [file_events] at this
      simp [file_events, this]
  · simp [file_events]

theorem sink_access_file_events :
    ∀ (es : List Event) (held : Bool),
      sink_access_locked held es = sink_access_locked held (file_events es) := by
  intro es
  induction es with
  | nil => intro held; rfl
  | cons e es ih =>
    intro held
    cases e <;> simp [sink_access_locked, file_events, ih]

theorem iteration_cases {lib : PacketLib P} {sizeof_pkt : Nat}
    (hlib : lib.WellFormed sizeof_pkt) (env : IterEnv P) (w : Worker P) :
    (ring_buffer_dequeue sizeof_pkt (some w.ring) (some w.buffer) lib.PKT_SZ env.wakes = .wait ∧
      (consumer_iteration lib sizeof_pkt env w).1 = .blocked ∧
      file_events (consumer_iteration lib sizeof_pkt env w).2 = []) ∨
    (ring_buffer_dequeue sizeof_pkt (some w.ring) (some w.buffer) lib.PKT_SZ env.wakes = .fault ∧
      (consumer_iteration lib sizeof_pkt env w).1 = .fault ∧
      file_events (consumer_iteration lib sizeof_pkt env w).2 = []) ∨
    (∃ r', ring_buffer_dequeue sizeof_pkt (some w.ring) (some w.buffer) lib.PKT_SZ env.wakes =
        .ret (-1) (some r', some w.buffer) ∧ r'.stop ≠ 0 ∧ r'.len = 0 ∧
      (consumer_iteration lib sizeof_pkt env w).1 = .leave ⟨r', w.buffer, w.sink⟩ ∧
      file_events (consumer_iteration lib sizeof_pkt env w).2 = []) ∨
    (∃ r' b', ring_buffer_dequeue sizeof_pkt (some w.ring) (some w.buffer) lib.PKT_SZ env.wakes =
        .ret (sizeof_pkt : Int) (some r', some b') ∧
      ((env.snprintf_fails = true ∧
        (consumer_iteration lib sizeof_pkt env w).1 = .again ⟨r', b', w.sink⟩ ∧
        file_events (consumer_iteration lib sizeof_pkt env w).2 = []) ∨
       (env.snprintf_fails = false ∧
        (consumer_iteration lib sizeof_pkt env w).1 =
          .again ⟨r', b', w.sink ++ env.write_result.appended (result_line lib b')⟩ ∧
        file_events (consumer_iteration lib sizeof_pkt env w).2 =
          [.file_lock, .sink_write (result_line lib b'), .file_unlock]))) := by
  have hlt := hlib.size_lt
  have hpos := hlib.size_pos
  have hpk := hlib.pkt_sz_eq
  subst hpk
  have hfe := file_events_dequeue lib.PKT_SZ (some w.ring) (some w.buffer) lib.PKT_SZ env.wakes
  have hcases := dequeue_valid_cases lib.PKT_SZ w.ring w.buffer env.wakes
  rw [to_ssize_t_of_lt hlt] at hcases
  rcases hcases with h | h | ⟨r', h, hs, hl⟩ | ⟨r', b', h⟩
  · left
    have e : consumer_iteration lib lib.PKT_SZ env w =
        (.blocked, ring_buffer_dequeue_events lib.PKT_SZ (some w.ring) (some w.buffer)
          lib.PKT_SZ env.wakes) := by
      simp [consumer_iteration, h]
    exact ⟨h, by rw [e], by rw [e]; exact hfe⟩
  · right; left
    have e : consumer_iteration lib lib.PKT_SZ env w =
        (.fault, ring_buffer_dequeue_events lib.PKT_SZ (some w.ring) (some w.buffer)
          lib.PKT_SZ env.wakes) := by
      simp [consumer_iteration, h]
    exact ⟨h, by rw [e], by rw [e]; exact hfe⟩
  · right; right; left
    have e := iteration_aborted lib lib.PKT_SZ env w r' w.buffer hs h
    refine ⟨r', h, hs, hl, by rw [e], ?_⟩
    rw [e, file_events_append, hfe]
    rfl
  · right; right; right
    have e := iteration_delivered hlib env w r' b' (lib.PKT_SZ : Int) (by omega) h
    refine ⟨r', b', h, ?_⟩
    by_cases hf : env.snprintf_fails = true
    · left
      rw [if_pos hf] at e
      exact ⟨hf, by rw [e], by rw [e]; exact hfe⟩
    · right
      rw [if_neg hf] at e
      refine ⟨by simpa using hf, by rw [e], ?_⟩
      rw [e, file_events_append, hfe]
      rfl

theorem thread_step_again {lib : PacketLib P} {sizeof_pkt : Nat} {env : IterEnv P}
    {w w' : Worker P} {evs : List Event} (envs : List (IterEnv P))
    (h : consumer_iteration lib sizeof_pkt env w = (.again w', evs)) :
    consumer_thread lib sizeof_pkt (env :: envs) w =
      ((consumer_thread lib sizeof_pkt envs w').1,
        evs ++ (consumer_thread lib sizeof_pkt envs w').2) := by
  rw [consumer_thread, h]

theorem thread_step_leave {lib : PacketLib P} {sizeof_pkt : Nat} {env : IterEnv P}
    {w w' : Worker P} {evs : List Event} (envs : List (IterEnv P))
    (h : consumer_iteration lib sizeof_pkt env w = (.leave w', evs)) :
    consumer_thread lib sizeof_pkt (env :: envs) w = (.exited w', evs) := by
  rw [consumer_thread, h]

theorem drain_thread [Inhabited P] {lib : PacketLib P} {sizeof_pkt : Nat}
    (hlib : lib.WellFormed sizeof_pkt) :
    ∀ (envs : List (IterEnv P)) (w : Worker P), Inv w.ring → w.ring.stop ≠ 0 →
      w.ring.len < envs.length →
      (∀ env ∈ envs, env.snprintf_fails = false ∧ env.write_result = .full) →
      ∃ w', (consumer_thread lib sizeof_pkt envs w).1 = .exited w' ∧
        w'.sink = w.sink ++ ((contents w.ring).map (result_line lib)).flatten ∧
        contents w'.ring = [] ∧ w'.ring.stop ≠ 0 ∧
        file_events (consumer_thread lib sizeof_pkt envs w).2 =
          (contents w.ring).flatMap
            (fun r => [.file_lock, .sink_write (result_line lib r), .file_unlock]) := by
  have hpk := hlib.pkt_sz_eq
  have hlt := hlib.size_lt
  have hpos := hlib.size_pos
  subst hpk
  intro envs
  induction envs with
  | nil => intro w _ _ hl; simp at hl
  | cons env envs ih =>
    intro w hinv hstop hl hb
    by_cases hempty : w.ring.len = 0
    · have hd := dequeue_empty_stopped lib.PKT_SZ w.ring w.buffer env.wakes hempty hstop
      have e := iteration_aborted lib lib.PKT_SZ env w w.ring w.buffer hstop hd
      have hc : contents w.ring = [] := by simp [contents, hempty]
      refine ⟨⟨w.ring, w.buffer, w.sink⟩, ?_, ?_, hc, hstop, ?_⟩
      · rw [thread_step_leave envs e]
      · simp [hc]
      · rw [thread_step_leave envs e, file_events_append, file_events_dequeue, hc]
        rfl
    · have hd := dequeue_of_inv hinv lib.PKT_SZ w.buffer env.wakes hempty
      rw [to_ssize_t_of_lt hlt] at hd
      have e := iteration_delivered hlib env w _ _ (lib.PKT_SZ : Int) (by omega) hd
      obtain ⟨hf, hw⟩ := hb env (List.mem_cons_self _ _)
      rw [hf, hw] at e
      simp only [Bool.false_eq_true, if_false, WriteResult.appended] at e
      have hinv' := inv_dequeue hinv hempty
      have key := fun (b : P) (s : List Char) =>
        ih ⟨{ w.ring with
              read_pos := (w.ring.read_pos + 1) % w.ring.cap
              len := w.ring.len - 1 }, b, s⟩ hinv' hstop
          (by simp only [List.length_cons] at hl; show w.ring.len - 1 < envs.length; omega)
          (fun env' hm => hb env' (List.mem_cons_of_mem _ hm))
      obtain ⟨w', h1, h2, h3, h4, h5⟩ :=
        key (w.ring.data.get ⟨w.ring.read_pos, by rw [hinv.data_len]; exact hinv.read_lt⟩)
          (w.sink ++ result_line lib
            (w.ring.data.get ⟨w.ring.read_pos, by rw [hinv.data_len]; exact hinv.read_lt⟩))
      refine ⟨w', ?_, ?_, h3, h4, ?_⟩
      · rw [thread_step_again envs e]; exact h1
      · rw [h2, contents_dequeue hinv hempty]
        simp [List.append_assoc]
      · rw [thread_step_again envs e]
        simp only [file_events_append, file_events_dequeue, h5,
          contents_dequeue hinv hempty, List.flatMap_cons]
        rfl

theorem stop_access_dequeue_locked :
    ∀ (wakes : List (so_ring_buffer_t P)) (ring : so_ring_buffer_t P),
      stop_access_locked true (dequeue_locked_events ring wakes) = true := by
  intro wakes
  induction wakes with
  | nil =>
    intro ring
    unfold dequeue_locked_events
    split_ifs <;> rfl
  | cons w ws ih =>
    intro ring
    unfold dequeue_locked_events
    split_ifs
    · rfl
    · simpa [stop_access_locked] using ih w
    · rfl

theorem stop_access_enqueue_locked :
    ∀ (wakes : List (so_ring_buffer_t P)) (ring : so_ring_buffer_t P),
      stop_access_locked true (enqueue_locked_events ring wakes) = true := by
  intro wakes
  induction wakes with
  | nil =>
    intro ring
    unfold enqueue_locked_events
    split_ifs <;> rfl
  | cons w ws ih =>
    intro ring
    unfold enqueue_locked_events
    split_ifs
    · rfl
    · simpa [stop_access_locked] using ih w
    · rfl

theorem queue_calls_access_stop_locked (sizeof_pkt : Nat) (ring : Option (so_ring_buffer_t P))
    (data : Option P) (size : Nat) (wakes : List (so_ring_buffer_t P)) :
    stop_access_locked false (ring_buffer_enqueue_events sizeof_pkt ring data size wakes) = true ∧
    stop_access_locked false (ring_buffer_dequeue_events sizeof_pkt ring data size wakes) = true ∧
    stop_access_locked false (ring_buffer_stop_events ring) = true := by
  refine ⟨?_, ?_, ?_⟩
  · unfold ring_buffer_enqueue_events
    split
    · split_ifs
      · rfl
      · simpa [stop_access_locked] using stop_access_enqueue_locked wakes _
    · rfl
  · unfold ring_buffer_dequeue_events
    split
    · split_ifs
      · rfl
      · simpa [stop_access_locked] using stop_access_dequeue_locked wakes _
    · rfl
  · cases ring <;> rfl

theorem lib_example_wf : lib_example.WellFormed 256 where
  pkt_sz_eq := rfl
  size_pos := by decide
  size_lt := by decide
  token_fits := by
    intro a
    by_cases h : a = 0 <;> simp [lib_example, h]

theorem reachable_stopped :
    Reachable 256 2 (⟨[30, 20], 1, 1, 2, 2, 1⟩ : so_ring_buffer_t Nat) :=
  Reachable.stop _ _ reachable_example rfl

end Lemmas

section PoolLemmas

variable {Q F : Type}

theorem create_loop_all_ok (env : PoolEnv) (rb : Q) (f : F) (fd : Int) :
    ∀ (remaining i t : Nat),
      (∀ j, i ≤ j → j < i + remaining → env.malloc_ok j = true ∧ env.create_ok j = true) →
      create_loop env rb f fd remaining i t =
        (some ((t + remaining : Nat) : Int),
          (List.range' i remaining).map (fun j => PoolEvent.create j ⟨rb, f, fd⟩)) := by
  intro remaining
  induction remaining with
  | zero => intro i t _; simp [create_loop]
  | succ r ih =>
    intro i t hok
    obtain ⟨hm, hc⟩ := hok i (le_refl _) (by omega)
    have := ih (i + 1) (t + 1) (fun j h1 h2 => hok j (by omega) (by omega))
    simp only [create_loop, initialize_context, hm, hc, Bool.true_eq_false, if_false, this,
      List.range'_succ, List.map_cons]
    congr 3
    omega

theorem create_loop_fails (env : PoolEnv) (rb : Q) (f : F) (fd : Int) :
    ∀ (k remaining i t : Nat), k < remaining →
      (∀ j, i ≤ j → j < i + k → env.malloc_ok j = true ∧ env.create_ok j = true) →
      (env.malloc_ok (i + k) = false ∨ env.create_ok (i + k) = false) →
      create_loop env rb f fd remaining i t =
        ((cleanup_and_fail (Q := Q) (F := F) env (t + k) fd).1,
          (List.range' i k).map (fun j => PoolEvent.create j ⟨rb, f, fd⟩) ++
            (cleanup_and_fail env (t + k) fd).2) := by
  intro k
  induction k with
  | zero =>
    intro remaining i t hk _ hbad
    obtain ⟨r, rfl⟩ : ∃ r, remaining = r + 1 := ⟨remaining - 1, by omega⟩
    simp only [Nat.add_zero] at hbad
    rcases hbad with h | h
    · simp [create_loop, initialize_context, h]
    · by_cases hm : env.malloc_ok i = false <;> simp [create_loop, initialize_context, h, hm]
  | succ k ih =>
    intro remaining i t hk hok hbad
    obtain ⟨r, rfl⟩ : ∃ r, remaining = r + 1 := ⟨remaining - 1, by omega⟩
    obtain ⟨hm, hc⟩ := hok i (le_refl _) (by omega)
    have := ih r (i + 1) (t + 1) (by omega) (fun j h1 h2 => hok j (by omega) (by omega))
      (by rw [show i + 1 + k = i + (k + 1) by omega]; exact hbad)
    simp only [create_loop, initialize_context, hm, hc, Bool.true_eq_false, if_false, this,
      List.range'_succ, List.map_cons, List.cons_append]
    rw [show t + 1 + k = t + (k + 1) by omega]

theorem cleanup_loop_unlocked (env : PoolEnv) :
    ∀ (remaining i : Nat) (o : Orphaned),
      (∀ j, i ≤ j → j < i + remaining → env.cancelled_at j = .unlocked) →
      cleanup_loop (Q := Q) (F := F) env remaining i o =
        (true, (List.range' i remaining).flatMap
          (fun j => [PoolEvent.cancel j, PoolEvent.join j])) := by
  intro remaining
  induction remaining with
  | zero => intro i o _; simp [cleanup_loop]
  | succ r ih =>
    intro i o h
    have h0 := h i (le_refl _) (by omega)
    have := ih (i + 1) o (fun j h1 h2 => h j (by omega) (by omega))
    simp [cleanup_loop, cancel_and_join, h0, this, List.range'_succ]

theorem cleanup_loop_two_waiters (env : PoolEnv) (remaining : Nat)
    (h0 : env.cancelled_at 0 = .cond_wait) (h1 : env.cancelled_at 1 = .cond_wait) :
    cleanup_loop (Q := Q) (F := F) env (remaining + 2) 0 ⟨false, false⟩ =
      (false, [.cancel 0, .join 0, .cancel 1]) := by
  simp [cleanup_loop, cancel_and_join, h0, h1]

theorem running_workers_creates (rb : Q) (f : F) (fd : Int) :
    ∀ (l : List Nat) (rest : List (PoolEvent Q F)) (run : List Nat),
      running_workers (l.map (fun j => PoolEvent.create j ⟨rb, f, fd⟩) ++ rest) run =
        running_workers rest (run ++ l) := by
  intro l
  induction l with
  | nil => intro rest run; simp
  | cons a l ih =>
    intro rest run
    show running_workers (l.map (fun j => PoolEvent.create j ⟨rb, f, fd⟩) ++ rest)
      (run ++ [a]) = _
    rw [ih, List.append_assoc]
    rfl

theorem running_workers_joins :
    ∀ (l : List Nat) (rest : List (PoolEvent Q F)) (run : List Nat),
      running_workers
          (l.flatMap (fun i => [PoolEvent.cancel i, PoolEvent.join i]) ++ rest) run =
        running_workers rest (run.filter (fun j => decide (j ∉ l))) := by
  intro l
  induction l with
  | nil => intro rest run; simp
  | cons a l ih =>
    intro rest run
    show running_workers
      (l.flatMap (fun i => [PoolEvent.cancel i, PoolEvent.join i]) ++ rest)
      (run.filter (fun j => j ≠ a)) = _
    rw [ih, List.filter_filter]
    congr 1
    apply List.filter_congr
    intro x _
    simp [List.mem_cons, not_or, Bool.and_comm]

theorem open_files_creates (rb : Q) (f : F) (fd : Int) :
    ∀ (l : List Nat) (rest : List (PoolEvent Q F)) (fds : List Int),
      open_files (l.map (fun j => PoolEvent.create j ⟨rb, f, fd⟩) ++ rest) fds =
        open_files rest fds := by
  intro l
  induction l with
  | nil => intro rest fds; simp
  | cons a l ih =>
    intro rest fds
    show open_files (l.map (fun j => PoolEvent.create j ⟨rb, f, fd⟩) ++ rest) fds = _
    exact ih rest fds

theorem open_files_joins :
    ∀ (l : List Nat) (rest : List (PoolEvent Q F)) (fds : List Int),
      open_files (l.flatMap (fun i => [PoolEvent.cancel i, PoolEvent.join i]) ++ rest) fds =
        open_files rest fds := by
  intro l
  induction l with
  | nil => intro rest fds; simp
  | cons a l ih =>
    intro rest fds
    show open_files (l.flatMap (fun i => [PoolEvent.cancel i, PoolEvent.join i]) ++ rest)
      fds = _
    exact ih rest fds

/-- When `open` succeeds and every worker can be started, `create_consumers`
opens the file once, starts the workers `0, ..., n - 1` with the same queue
and descriptor, and returns `n`. -/
theorem create_consumers_starts_all (env : PoolEnv) (n : Nat) (rb : Q) (f : F)
    (hfd : 0 ≤ env.open_result)
    (hok : ∀ j, j < n → env.malloc_ok j = true ∧ env.create_ok j = true) :
    create_consumers env (n : Int) rb f =
      (some (n : Int), .open_file f env.open_result ::
        (List.range n).map (fun j => .create j ⟨rb, f, env.open_result⟩)) ∧
    running_workers (create_consumers env (n : Int) rb f).2 [] = List.range n ∧
    open_files (create_consumers env (n : Int) rb f).2 [] = [env.open_result] := by
  have hlt : ¬ env.open_result < 0 := by omega
  have e : create_consumers env (n : Int) rb f =
      (some (n : Int), .open_file f env.open_result ::
        (List.range n).map (fun j => .create j ⟨rb, f, env.open_result⟩)) := by
    have := create_loop_all_ok env rb f env.open_result n 0 0
      (fun j _ h => hok j (by omega))
    simp only [create_consumers, hlt, if_false, Int.toNat_ofNat, this, Nat.zero_add,
      List.range_eq_range']
  refine ⟨e, ?_, ?_⟩
  · rw [e]
    have := running_workers_creates rb f env.open_result (List.range n) [] []
    simpa [running_workers] using this
  · rw [e]
    have := open_files_creates rb f env.open_result (List.range n) [] [env.open_result]
    simpa [open_files, hfd] using this

/-- When `open` fails, `create_consumers` returns `-1`; no worker was started
and no file is open. -/
theorem create_consumers_open_fails (env : PoolEnv) (n : Int) (rb : Q) (f : F)
    (hfd : env.open_result < 0) :
    create_consumers env n rb f = (some (-1), [.open_file f env.open_result]) ∧
    running_workers (create_consumers env n rb f).2 [] = [] ∧
    open_files (create_consumers env n rb f).2 [] = [] := by
  have e : create_consumers env n rb f = (some (-1), [.open_file f env.open_result]) := by
    simp [create_consumers, hfd]
  refine ⟨e, ?_, ?_⟩
  · rw [e]; rfl
  · rw [e]
    have : ¬ 0 ≤ env.open_result := by omega
    simp [open_files, this]

/-- When worker `i` is the first that cannot be started and each worker
started before it acts on its cancellation with no mutex held,
`create_consumers` returns `-1` after cancelling and joining the workers
`0, ..., i - 1` and closing the file. -/
theorem create_consumers_cleanup_returns (env : PoolEnv) (n i : Nat) (rb : Q) (f : F)
    (hfd : 0 ≤ env.open_result) (hi : i < n)
    (hok : ∀ j, j < i → env.malloc_ok j = true ∧ env.create_ok j = true)
    (hbad : env.malloc_ok i = false ∨ env.create_ok i = false)
    (hun : ∀ j, j < i → env.cancelled_at j = .unlocked) :
    create_consumers env (n : Int) rb f =
      (some (-1), .open_file f env.open_result ::
        ((List.range i).map (fun j => .create j ⟨rb, f, env.open_result⟩) ++
          (List.range i).flatMap (fun j => [.cancel j, .join j]) ++
          [.close env.open_result])) ∧
    running_workers (create_consumers env (n : Int) rb f).2 [] = [] ∧
    open_files (create_consumers env (n : Int) rb f).2 [] = [] := by
  have hlt : ¬ env.open_result < 0 := by omega
  have e : create_consumers env (n : Int) rb f =
      (some (-1), .open_file f env.open_result ::
        ((List.range i).map (fun j => .create j ⟨rb, f, env.open_result⟩) ++
          (List.range i).flatMap (fun j => [.cancel j, .join j]) ++
          [.close env.open_result])) := by
    have h1 := create_loop_fails env rb f env.open_result i n 0 0 hi
      (fun j _ h => hok j (by omega)) (by simpa using hbad)
    have h2 := cleanup_loop_unlocked (Q := Q) (F := F) env i 0 ⟨false, false⟩
      (fun j _ h => hun j (by omega))
    simp only [create_consumers, hlt, if_false, Int.toNat_ofNat, h1, Nat.zero_add,
      cleanup_and_fail, cleanup_threads, h2, hfd, if_true, List.range_eq_range',
      List.append_assoc]
  refine ⟨e, ?_, ?_⟩
  · rw [e]
    simp only [running_workers, List.append_assoc]
    rw [running_workers_creates, running_workers_joins]
    simp [running_workers]
  · rw [e]
    simp only [open_files, hfd, if_true, List.append_assoc, List.nil_append]
    rw [open_files_creates, open_files_joins]
    simp [open_files]

/-- When at least two workers were started before the first that cannot be
started and workers 0 and 1 are idle in `pthread_cond_wait`, the join of
worker 1 never returns: `create_consumers` does not return and does not close
the file. -/
theorem create_consumers_never_returns (env : PoolEnv) (n i : Nat) (rb : Q) (f : F)
    (hfd : 0 ≤ env.open_result) (hi : i < n) (h2 : 2 ≤ i)
    (hok : ∀ j, j < i → env.malloc_ok j = true ∧ env.create_ok j = true)
    (hbad : env.malloc_ok i = false ∨ env.create_ok i = false)
    (h0 : env.cancelled_at 0 = .cond_wait) (h1 : env.cancelled_at 1 = .cond_wait) :
    create_consumers env (n : Int) rb f =
      (none, .open_file f env.open_result ::
        ((List.range i).map (fun j => .create j ⟨rb, f, env.open_result⟩) ++
          [.cancel 0, .join 0, .cancel 1])) := by
  have hlt : ¬ env.open_result < 0 := by omega
  obtain ⟨r, rfl⟩ : ∃ r, i = r + 2 := ⟨i - 2, by omega⟩
  have e1 := create_loop_fails env rb f env.open_result (r + 2) n 0 0 hi
    (fun j _ h => hok j (by omega)) (by simpa using hbad)
  have e2 := cleanup_loop_two_waiters (Q := Q) (F := F) env r h0 h1
  simp only [create_consumers, hlt, if_false, Int.toNat_ofNat, e1, Nat.zero_add,
    cleanup_and_fail, cleanup_threads, e2, List.range_eq_range']
  simp

end PoolLemmas

/-! ## The claims -/

section Claims

variable {P : Type}

/-- Claim C1 (FIFO refinement).  Take a queue freshly initialised with capacity
`cap` and run any sequence of enqueue and dequeue calls on it.  The run on the
ring buffer and the run on the bounded FIFO list agree: both complete or both
fail to complete (an enqueue on a full queue, a dequeue on an empty one), and
when they complete they deliver the same records and end with the same queued
records.  For a completed run the delivered records followed by the records
still queued are exactly the records handed to enqueue, in order, so the
delivered records are the first records accepted: nothing is reordered,
duplicated or lost, also when the indices wrap around. -/
theorem ring_buffer_refines_fifo [Inhabited P] (sizeof_pkt cap : Nat) (env : InitEnv)
    (rb : so_ring_buffer_t P) (ops : List (Op P))
    (hsz : sizeof_pkt < 2 ^ 63) (hcap : cap < SIZE_MOD)
    (hinit : ring_buffer_init false cap env = (RING_BUFFER_SUCCESS, some rb)) :
    (run_ops sizeof_pkt rb ops).map (fun p => (p.1, contents p.2)) = fifo_run cap [] ops ∧
    ∀ (outs : List P) (rb' : so_ring_buffer_t P),
      run_ops sizeof_pkt rb ops = some (outs, rb') →
        outs ++ contents rb' = enqueued ops ∧ outs = (enqueued ops).take outs.length := by
  have hinv := inv_init hinit hcap
  obtain ⟨hc, hcap'⟩ := contents_init hinit
  have href := run_ops_refines sizeof_pkt hsz ops rb hinv
  rw [hc, hcap'] at href
  refine ⟨href, ?_⟩
  intro outs rb' hrun
  rw [hrun] at href
  have := fifo_run_enqueued cap ops [] outs (contents rb') href.symm
  simp only [List.nil_append] at this
  refine ⟨this.symm, ?_⟩
  rw [this]
  simp

/-- Claim C1 at a concrete queue. -/
theorem ring_buffer_refines_fifo_witness :
    (run_ops 256 (⟨[0, 0], 0, 0, 0, 2, 0⟩ : so_ring_buffer_t Nat)
        [.enq 10, .enq 20, .deq, .enq 30, .deq, .enq 40, .deq, .deq]).map
      (fun p => (p.1, contents p.2)) = some ([10, 20, 30, 40], []) :=
  (ring_buffer_refines_fifo 256 2 env_ok ⟨[0, 0], 0, 0, 0, 2, 0⟩ _
    (by decide) (by decide) (by decide)).1.trans (by decide)

/-- Claim C2 (count stays within bounds).  In every state reachable from a
successful `ring_buffer_init(ring, cap)` by enqueue, dequeue and stop calls,
`0 ≤ len ≤ cap` and `cap` is the capacity given to init.  The `size_t`
decrement never wraps: a dequeue call that returns either leaves `len` as it
is or finds `len > 0` and leaves `len - 1`. -/
theorem len_within_capacity [Inhabited P] (sizeof_pkt cap : Nat) (rb : so_ring_buffer_t P)
    (hcap : cap < SIZE_MOD) (hreach : Reachable sizeof_pkt cap rb) :
    0 ≤ rb.len ∧ rb.len ≤ rb.cap ∧ rb.cap = cap ∧
    ∀ (data out : Option P) (size : Nat) (v : Int) (rb' : so_ring_buffer_t P),
      ring_buffer_dequeue sizeof_pkt (some rb) data size [] = .ret v (some rb', out) →
        rb'.len = rb.len ∨ (0 < rb.len ∧ rb'.len = rb.len - 1) := by
  obtain ⟨hinv, hc⟩ := reachable_inv hcap hreach
  refine ⟨Nat.zero_le _, hinv.len_le, hc, ?_⟩
  intro data out size v rb' hd
  rcases dequeue_step_cases hinv hd with ⟨e, _⟩ | ⟨_, _, hne, _, e, _⟩
  · exact Or.inl (by rw [e])
  · exact Or.inr ⟨Nat.pos_of_ne_zero hne, by rw [e]⟩

/-- Claim C2 at a concrete queue. -/
theorem len_within_capacity_witness :
    Reachable 256 2 (⟨[30, 20], 1, 1, 2, 2, 0⟩ : so_ring_buffer_t Nat) ∧
      (⟨[30, 20], 1, 1, 2, 2, 0⟩ : so_ring_buffer_t Nat).len ≤ 2 :=
  ⟨reachable_example,
    (len_within_capacity 256 2 ⟨[30, 20], 1, 1, 2, 2, 0⟩ (by decide) reachable_example).2.1⟩

/-- Claim C3 (positions stay inside the storage).  In every reachable state
`read_pos < cap`, `write_pos < cap` and `write_pos = (read_pos + len) mod cap`;
the storage has exactly `cap` slots, and no enqueue or dequeue call started in
a reachable state accesses a slot outside it, whatever its arguments and
whatever reachable states it is woken up in. -/
theorem positions_within_storage [Inhabited P] (sizeof_pkt cap : Nat) (rb : so_ring_buffer_t P)
    (hcap : cap < SIZE_MOD) (hreach : Reachable sizeof_pkt cap rb) :
    rb.read_pos < cap ∧ rb.write_pos < cap ∧
    rb.write_pos = (rb.read_pos + rb.len) % cap ∧
    rb.cap = cap ∧ rb.data.length = cap ∧
    ∀ (data : Option P) (size : Nat) (wakes : List (so_ring_buffer_t P)),
      (∀ w ∈ wakes, Reachable sizeof_pkt cap w) →
        ring_buffer_enqueue sizeof_pkt (some rb) data size wakes ≠ .fault ∧
        ring_buffer_dequeue sizeof_pkt (some rb) data size wakes ≠ .fault := by
  obtain ⟨hinv, hc⟩ := reachable_inv hcap hreach
  have h1 := hinv.read_lt
  have h2 := hinv.write_lt
  have h3 := hinv.write_eq
  have h4 := hinv.data_len
  rw [hc] at h1 h2 h3 h4
  refine ⟨h1, h2, h3, hc, h4, ?_⟩
  intro data size wakes hw
  have hw' : ∀ w ∈ wakes, Inv w := fun w hm => (reachable_inv hcap (hw w hm)).1
  exact ⟨enqueue_no_fault sizeof_pkt rb hinv data size wakes hw',
    dequeue_no_fault sizeof_pkt rb hinv data size wakes hw'⟩

/-- Claim C3 at a concrete queue. -/
theorem positions_within_storage_witness :
    Reachable 256 2 (⟨[30, 20], 1, 1, 2, 2, 0⟩ : so_ring_buffer_t Nat) ∧
      ring_buffer_enqueue 256 (some (⟨[30, 20], 1, 1, 2, 2, 0⟩ : so_ring_buffer_t Nat))
        (some 40) 256 [⟨[30, 20], 1, 1, 2, 2, 0⟩] ≠ .fault :=
  ⟨reachable_example,
    ((positions_within_storage 256 2 ⟨[30, 20], 1, 1, 2, 2, 0⟩ (by decide)
      reachable_example).2.2.2.2.2 (some 40) 256 [⟨[30, 20], 1, 1, 2, 2, 0⟩]
        (fun w hw => by rw [List.mem_singleton.mp hw]; exact reachable_example)).1⟩

/-- Claim C4 (drain before abort).  Let a reachable queue hold the records
`r1, ..., rk`.  After `ring_buffer_stop`, `k + 1` successive dequeue calls all
return: the first `k` return `sizeof_pkt` and deliver `r1, ..., rk` in order,
and the last returns `-1` and leaves the caller's record untouched.  The first
`k` calls behave exactly as on the queue that was not stopped: same returned
values, same records, and the same queue apart from the stop flag. -/
theorem drain_before_abort [Inhabited P] (sizeof_pkt cap : Nat) (rb : so_ring_buffer_t P)
    (buf : P) (hsz : sizeof_pkt < 2 ^ 63) (hcap : cap < SIZE_MOD)
    (hreach : Reachable sizeof_pkt cap rb) :
    ∃ stopped : so_ring_buffer_t P,
      ring_buffer_stop (some rb) = some stopped ∧
      (dequeue_seq sizeof_pkt buf ((contents rb).length + 1) stopped).map observed =
        (contents rb).map (fun r => some ((sizeof_pkt : Int), some r)) ++
          [some (-1, some buf)] ∧
      dequeue_seq sizeof_pkt buf (contents rb).length stopped =
        (dequeue_seq sizeof_pkt buf (contents rb).length rb).map stop_after ∧
      (dequeue_seq sizeof_pkt buf (contents rb).length rb).map observed =
        (contents rb).map (fun r => some ((sizeof_pkt : Int), some r)) := by
  obtain ⟨hinv, _⟩ := reachable_inv hcap hreach
  refine ⟨{ rb with stop := 1 }, rfl, ?_, ?_, ?_⟩
  · rw [contents_length, ← to_ssize_t_of_lt hsz]
    exact drain_then_abort sizeof_pkt buf rb.len _ (inv_set_stop hinv 1) rfl (by simp)
  · rw [contents_length]
    exact drain_stop_commute sizeof_pkt buf rb.len rb hinv (le_refl _)
  · rw [contents_length, ← to_ssize_t_of_lt hsz]
    exact drain_observed sizeof_pkt buf rb.len rb hinv rfl

/-- Claim C4 at a concrete queue. -/
theorem drain_before_abort_witness :
    Reachable 256 1 (⟨[7], 0, 0, 1, 1, 0⟩ : so_ring_buffer_t Nat) ∧
      (dequeue_seq 256 0 2 (⟨[7], 0, 0, 1, 1, 1⟩ : so_ring_buffer_t Nat)).map observed =
        [some (256, some 7), some (-1, some 0)] := by
  refine ⟨reachable_single, ?_⟩
  obtain ⟨stopped, hs, h, -⟩ :=
    drain_before_abort 256 1 ⟨[7], 0, 0, 1, 1, 0⟩ 0 (by decide) (by decide) reachable_single
  have e : stopped = ⟨[7], 0, 0, 1, 1, 1⟩ := (Option.some.inj hs).symm
  rw [e] at h
  exact h

/-- Claim C5 (drained and stopped).  On a queue with the stop flag set and
`len = 0`, `ring_buffer_dequeue` returns `-1` whatever its other arguments and
without waiting; the queue and the caller's record are unchanged.  Hence every
further dequeue call returns `-1` in the same way. -/
theorem dequeue_aborts_when_drained (sizeof_pkt : Nat) (rb : so_ring_buffer_t P)
    (hstop : rb.stop ≠ 0) (hlen : rb.len = 0) :
    (∀ (data : Option P) (size : Nat) (wakes : List (so_ring_buffer_t P)),
      ring_buffer_dequeue sizeof_pkt (some rb) data size wakes = .ret (-1) (some rb, data)) ∧
    ∀ (buf : P) (n : Nat),
      dequeue_seq sizeof_pkt buf n rb = List.replicate n (.ret (-1) (some rb, some buf)) := by
  have h1 : ∀ (data : Option P) (size : Nat) (wakes : List (so_ring_buffer_t P)),
      ring_buffer_dequeue sizeof_pkt (some rb) data size wakes =
        .ret (-1) (some rb, data) := by
    intro data size wakes
    cases data with
    | none => simp [ring_buffer_dequeue]
    | some buf =>
      by_cases hs : size = sizeof_pkt
      · rw [hs]; exact dequeue_empty_stopped sizeof_pkt rb buf wakes hlen hstop
      · simp [ring_buffer_dequeue, hs]
  refine ⟨h1, ?_⟩
  intro buf n
  induction n with
  | zero => simp [dequeue_seq]
  | succ n ih => simp [dequeue_seq, h1, ih, List.replicate_succ]

/-- Claim C5 at a concrete queue. -/
theorem dequeue_aborts_when_drained_witness :
    ring_buffer_dequeue 256 (some (⟨[7], 0, 0, 0, 1, 1⟩ : so_ring_buffer_t Nat)) (some 5) 256 [] =
      .ret (-1) (some ⟨[7], 0, 0, 0, 1, 1⟩, some 5) :=
  (dequeue_aborts_when_drained 256 ⟨[7], 0, 0, 0, 1, 1⟩ (by decide) (by decide)).1 (some 5) 256 []

/-- Claim C6 (full and stopped).  On a queue with the stop flag set and
`len = cap`, `ring_buffer_enqueue` returns `-1` without waiting and leaves the
queue (storage, `read_pos`, `write_pos`, `len`) unchanged. -/
theorem enqueue_aborts_when_full_stopped (sizeof_pkt : Nat) (rb : so_ring_buffer_t P)
    (hstop : rb.stop ≠ 0) (hlen : rb.len = rb.cap) :
    ∀ (data : Option P) (size : Nat) (wakes : List (so_ring_buffer_t P)),
      ring_buffer_enqueue sizeof_pkt (some rb) data size wakes = .ret (-1) (some rb) := by
  intro data size wakes
  cases data with
  | none => simp [ring_buffer_enqueue]
  | some x =>
    by_cases hs : size = sizeof_pkt
    · rw [hs]; exact enqueue_full_stopped sizeof_pkt rb x wakes hlen hstop
    · simp [ring_buffer_enqueue, hs]

/-- Claim C6 at a concrete queue. -/
theorem enqueue_aborts_when_full_stopped_witness :
    ring_buffer_enqueue 256 (some (⟨[7], 0, 0, 1, 1, 1⟩ : so_ring_buffer_t Nat)) (some 5) 256 [] =
      .ret (-1) (some ⟨[7], 0, 0, 1, 1, 1⟩) :=
  enqueue_aborts_when_full_stopped 256 ⟨[7], 0, 0, 1, 1, 1⟩ (by decide) (by decide)
    (some 5) 256 []

/-- Claim C7 (initialisation).  With `cap > 0`, a non-null `ring` and every
library call succeeding, `ring_buffer_init` returns `0` and the queue has the
requested capacity, `len = 0`, `read_pos = write_pos = 0`, `stop = 0` and `cap`
zeroed slots.  With `cap = 0` it returns the non-zero code
`RING_BUFFER_ERR_NULL_PTR` and there is no queue. -/
theorem init_contract [Inhabited P] (cap : Nat) (env : InitEnv) (hcap : 0 < cap)
    (hcalloc : env.calloc_ok = true) (hmutex : env.mutex_init_ok = true)
    (hne : env.not_empty_init_ok = true) (hnf : env.not_full_init_ok = true) :
    (∃ rb : so_ring_buffer_t P,
      ring_buffer_init false cap env = (0, some rb) ∧
      rb.cap = cap ∧ rb.len = 0 ∧ rb.read_pos = 0 ∧ rb.write_pos = 0 ∧ rb.stop = 0 ∧
      rb.data = List.replicate cap default) ∧
    ∀ (ring_null : Bool) (env0 : InitEnv),
      (ring_buffer_init ring_null 0 env0 : Int × Option (so_ring_buffer_t P)) =
        (RING_BUFFER_ERR_NULL_PTR, none) ∧ RING_BUFFER_ERR_NULL_PTR ≠ 0 := by
  constructor
  · refine ⟨⟨List.replicate cap default, 0, 0, 0, cap, 0⟩, ?_, rfl, rfl, rfl, rfl, rfl, rfl⟩
    have : cap ≠ 0 := by omega
    simp [ring_buffer_init, this, hcalloc, hmutex, hne, hnf, RING_BUFFER_SUCCESS]
  · intro ring_null env0
    simp [ring_buffer_init, RING_BUFFER_ERR_NULL_PTR]

/-- Claim C7 at a concrete queue. -/
theorem init_contract_witness :
    ∃ rb : so_ring_buffer_t Nat,
      ring_buffer_init false 4 env_ok = (0, some rb) ∧
      rb.cap = 4 ∧ rb.len = 0 ∧ rb.read_pos = 0 ∧ rb.write_pos = 0 ∧ rb.stop = 0 ∧
      rb.data = List.replicate 4 default :=
  (init_contract 4 env_ok (by decide) rfl rfl rfl rfl).1

/-- Claim C8 (blocking predicate).  With valid arguments, enqueue is suspended
exactly when `len = cap` and the stop flag is clear, and dequeue exactly when
`len = 0` and the stop flag is clear.  In every other state the call does not
wait: its outcome does not depend on any wake-up, and it returns as soon as
the slot it uses is inside the storage.  After a wake-up the call evaluates
the same predicate again, on the state it then finds. -/
theorem blocking_predicate (sizeof_pkt : Nat) (rb : so_ring_buffer_t P) (x buf : P) :
    (ring_buffer_enqueue sizeof_pkt (some rb) (some x) sizeof_pkt [] = .wait ↔
      rb.len = rb.cap ∧ rb.stop = 0) ∧
    (ring_buffer_dequeue sizeof_pkt (some rb) (some buf) sizeof_pkt [] = .wait ↔
      rb.len = 0 ∧ rb.stop = 0) ∧
    (¬ (rb.len = rb.cap ∧ rb.stop = 0) →
      ∀ wakes : List (so_ring_buffer_t P),
        ring_buffer_enqueue sizeof_pkt (some rb) (some x) sizeof_pkt wakes =
          ring_buffer_enqueue sizeof_pkt (some rb) (some x) sizeof_pkt []) ∧
    (¬ (rb.len = 0 ∧ rb.stop = 0) →
      ∀ wakes : List (so_ring_buffer_t P),
        ring_buffer_dequeue sizeof_pkt (some rb) (some buf) sizeof_pkt wakes =
          ring_buffer_dequeue sizeof_pkt (some rb) (some buf) sizeof_pkt []) ∧
    (rb.len = rb.cap ∧ rb.stop = 0 →
      ∀ (woken : so_ring_buffer_t P) (rest : List (so_ring_buffer_t P)),
        ring_buffer_enqueue sizeof_pkt (some rb) (some x) sizeof_pkt (woken :: rest) =
          ring_buffer_enqueue sizeof_pkt (some woken) (some x) sizeof_pkt rest) ∧
    (rb.len = 0 ∧ rb.stop = 0 →
      ∀ (woken : so_ring_buffer_t P) (rest : List (so_ring_buffer_t P)),
        ring_buffer_dequeue sizeof_pkt (some rb) (some buf) sizeof_pkt (woken :: rest) =
          ring_buffer_dequeue sizeof_pkt (some woken) (some buf) sizeof_pkt rest) ∧
    (¬ (rb.len = rb.cap ∧ rb.stop = 0) → rb.write_pos < rb.data.length → rb.cap ≠ 0 →
      ∀ wakes : List (so_ring_buffer_t P), ∃ v post,
        ring_buffer_enqueue sizeof_pkt (some rb) (some x) sizeof_pkt wakes = .ret v post) ∧
    (¬ (rb.len = 0 ∧ rb.stop = 0) → rb.read_pos < rb.data.length → rb.cap ≠ 0 →
      ∀ wakes : List (so_ring_buffer_t P), ∃ v post,
        ring_buffer_dequeue sizeof_pkt (some rb) (some buf) sizeof_pkt wakes = .ret v post) := by
  refine ⟨?_, ?_, ?_, ?_, ?_, ?_, ?_, ?_⟩
  · rw [← enqueue_locked_wait_iff x sizeof_pkt rb]
    simp only [ring_buffer_enqueue, ne_eq, not_true_eq_false, if_false]
    cases enqueue_locked x sizeof_pkt rb [] <;> simp
  · rw [← dequeue_locked_wait_iff buf sizeof_pkt rb]
    simp only [ring_buffer_dequeue, ne_eq, not_true_eq_false, if_false]
    cases dequeue_locked buf sizeof_pkt rb [] <;> simp
  · intro h wakes
    simp only [ring_buffer_enqueue, enqueue_locked_wakes_irrelevant x sizeof_pkt rb wakes h]
  · intro h wakes
    simp only [ring_buffer_dequeue, dequeue_locked_wakes_irrelevant buf sizeof_pkt rb wakes h]
  · intro h woken rest
    simp [ring_buffer_enqueue, enqueue_locked, h.1, h.2]
  · intro h woken rest
    simp [ring_buffer_dequeue, dequeue_locked, h.1, h.2]
  · intro h hw hc wakes
    by_cases hfull : rb.len = rb.cap
    · have hstop : rb.stop ≠ 0 := fun hs => h ⟨hfull, hs⟩
      exact ⟨_, _, enqueue_full_stopped sizeof_pkt rb x wakes hfull hstop⟩
    · simp only [ring_buffer_enqueue, ne_eq, not_true_eq_false, if_false,
        enqueue_locked_insert x sizeof_pkt rb wakes hfull hw hc]
      exact ⟨_, _, rfl⟩
  · intro h hr hc wakes
    by_cases hempty : rb.len = 0
    · have hstop : rb.stop ≠ 0 := fun hs => h ⟨hempty, hs⟩
      exact ⟨_, _, dequeue_empty_stopped sizeof_pkt rb buf wakes hempty hstop⟩
    · simp only [ring_buffer_dequeue, ne_eq, not_true_eq_false, if_false,
        dequeue_locked_remove buf sizeof_pkt rb wakes hempty hr hc]
      exact ⟨_, _, rfl⟩

/-- Claim C9 (hand-off on a full queue).  After `init(n)` with `n ≥ 1` and
enqueues of `r1, ..., rn`, which all return at once, an enqueue of `x` blocks.
A dequeue returns `r1`; woken up in the state that dequeue left, the blocked
enqueue of `x` returns successfully; the next `n` dequeues deliver
`r2, ..., rn, x` in this order. -/
theorem full_queue_handoff [Inhabited P] (sizeof_pkt n : Nat) (env : InitEnv)
    (rb0 : so_ring_buffer_t P) (rs : List P) (x buf : P)
    (hsz : sizeof_pkt < 2 ^ 63) (hn : 1 ≤ n) (hcap : n < SIZE_MOD)
    (hinit : ring_buffer_init false n env = (RING_BUFFER_SUCCESS, some rb0))
    (hrs : rs.length = n) :
    ∃ (full q1 q2 : so_ring_buffer_t P) (r1 : P) (rest : List P),
      rs = r1 :: rest ∧
      enqueue_all sizeof_pkt rb0 rs = some full ∧
      ring_buffer_enqueue sizeof_pkt (some full) (some x) sizeof_pkt [] = .wait ∧
      ring_buffer_dequeue sizeof_pkt (some full) (some buf) sizeof_pkt [] =
        .ret (sizeof_pkt : Int) (some q1, some r1) ∧
      ring_buffer_enqueue sizeof_pkt (some full) (some x) sizeof_pkt [q1] =
        .ret (sizeof_pkt : Int) (some q2) ∧
      (dequeue_seq sizeof_pkt buf n q2).map observed =
        (rest ++ [x]).map (fun r => some ((sizeof_pkt : Int), some r)) := by
  have hinv0 := inv_init hinit hcap
  obtain ⟨hc0, hcap0⟩ := contents_init hinit
  obtain ⟨_, _, _, hrb0⟩ := init_success hinit
  have hlen0 : rb0.len = 0 := by rw [hrb0]
  have hstop0 : rb0.stop = 0 := by rw [hrb0]
  obtain ⟨full, hfull, hinvf, hcf, hcapf, hstopf, hlenf⟩ :=
    enqueue_all_of_inv sizeof_pkt rs rb0 hinv0 (by rw [hlen0, hrs, hcap0]; omega)
  rw [hc0, List.nil_append] at hcf
  rw [hlen0, hrs, Nat.zero_add] at hlenf
  rw [hcap0] at hcapf
  rw [hstop0] at hstopf
  have hfl : full.len = full.cap := by rw [hlenf, hcapf]
  have hne : full.len ≠ 0 := by omega
  obtain ⟨r1, rest, hrs'⟩ : ∃ r1 rest, rs = r1 :: rest := by
    cases rs with
    | nil => simp at hrs; omega
    | cons a t => exact ⟨a, t, rfl⟩
  have hdq := contents_dequeue hinvf hne
  rw [hcf, hrs'] at hdq
  injection hdq with hhead htail
  have hinv1 := inv_dequeue hinvf hne
  have hne1 : (full.len - 1) ≠ full.cap := by omega
  have hssz := to_ssize_t_of_lt hsz
  refine ⟨full, { full with read_pos := (full.read_pos + 1) % full.cap, len := full.len - 1 },
    { full with
      data := full.data.set full.write_pos x
      read_pos := (full.read_pos + 1) % full.cap
      write_pos := (full.write_pos + 1) % full.cap
      len := full.len - 1 + 1 },
    r1, rest, hrs', hfull, ?_, ?_, ?_, ?_⟩
  · exact enqueue_full_running sizeof_pkt full x hfl hstopf
  · rw [dequeue_of_inv hinvf sizeof_pkt buf [] hne, hssz, ← hhead]
  · have : ring_buffer_enqueue sizeof_pkt (some full) (some x) sizeof_pkt
        [{ full with read_pos := (full.read_pos + 1) % full.cap, len := full.len - 1 }] =
        ring_buffer_enqueue sizeof_pkt
          (some { full with read_pos := (full.read_pos + 1) % full.cap, len := full.len - 1 })
          (some x) sizeof_pkt [] := by
      simp [ring_buffer_enqueue, enqueue_locked, hfl, hstopf]
    rw [this, enqueue_of_inv hinv1 sizeof_pkt x [] hne1, hssz]
  · have hinv2 := inv_enqueue hinv1 x hne1
    have hl2 : full.len - 1 + 1 = n := by omega
    have := drain_observed sizeof_pkt buf n _ hinv2 hl2
    rw [this, contents_enqueue hinv1 x hne1, ← htail, hssz]

/-- Claim C9 at a concrete queue. -/
theorem full_queue_handoff_witness :
    ∃ (full q1 q2 : so_ring_buffer_t Nat) (r1 : Nat) (rest : List Nat),
      [10, 20] = r1 :: rest ∧
      enqueue_all 256 ⟨[0, 0], 0, 0, 0, 2, 0⟩ [10, 20] = some full ∧
      ring_buffer_enqueue 256 (some full) (some 30) 256 [] = .wait ∧
      ring_buffer_dequeue 256 (some full) (some 0) 256 [] =
        .ret ((256 : Nat) : Int) (some q1, some r1) ∧
      ring_buffer_enqueue 256 (some full) (some 30) 256 [q1] =
        .ret ((256 : Nat) : Int) (some q2) ∧
      (dequeue_seq 256 0 2 q2).map observed =
        (rest ++ [30]).map (fun r => some (((256 : Nat) : Int), some r)) :=
  full_queue_handoff 256 2 env_ok ⟨[0, 0], 0, 0, 0, 2, 0⟩ [10, 20] 30 0
    (by decide) (by decide) (by decide) (by decide) rfl

/-- Claim C10 (stop only throttles).  On a queue with the stop flag set and
`len < cap`, whose `cap` is a `size_t` value and whose `write_pos` addresses an
allocated slot, `ring_buffer_enqueue` with a valid record returns `sizeof_pkt`
(not `-1`), stores the record at `write_pos` and increments `len`; the same
call on the queue with the stop flag clear does exactly the same. -/
theorem stop_only_throttles (sizeof_pkt : Nat) (rb : so_ring_buffer_t P) (x : P)
    (wakes : List (so_ring_buffer_t P))
    (hsz : sizeof_pkt < 2 ^ 63) (hcap : rb.cap < SIZE_MOD)
    (hw : rb.write_pos < rb.data.length)
    (_hstop : rb.stop ≠ 0) (hlen : rb.len < rb.cap) :
    ring_buffer_enqueue sizeof_pkt (some rb) (some x) sizeof_pkt wakes =
      .ret (sizeof_pkt : Int)
        (some { rb with
                data := rb.data.set rb.write_pos x
                write_pos := ((rb.write_pos + 1) % SIZE_MOD) % rb.cap
                len := rb.len + 1 }) ∧
    (rb.data.set rb.write_pos x)[rb.write_pos]? = some x ∧
    ring_buffer_enqueue sizeof_pkt (some { rb with stop := 0 }) (some x) sizeof_pkt wakes =
      .ret (sizeof_pkt : Int)
        (some { rb with
                data := rb.data.set rb.write_pos x
                write_pos := ((rb.write_pos + 1) % SIZE_MOD) % rb.cap
                len := rb.len + 1
                stop := 0 }) := by
  have hne : rb.len ≠ rb.cap := by omega
  have hc0 : rb.cap ≠ 0 := by omega
  have hl : (rb.len + 1) % SIZE_MOD = rb.len + 1 := Nat.mod_eq_of_lt (by omega)
  refine ⟨?_, ?_, ?_⟩
  · simp only [ring_buffer_enqueue, ne_eq, not_true_eq_false, if_false,
      enqueue_locked_insert x sizeof_pkt rb wakes hne hw hc0, hl, to_ssize_t_of_lt hsz]
  · simp [List.getElem?_set, hw]
  · have := enqueue_locked_insert x sizeof_pkt { rb with stop := 0 } wakes hne hw hc0
    simp only [ring_buffer_enqueue, ne_eq, not_true_eq_false, if_false, this, hl,
      to_ssize_t_of_lt hsz]

/-- Claim C10 at a concrete queue. -/
theorem stop_only_throttles_witness :
    ring_buffer_enqueue 256 (some (⟨[10, 0], 0, 1, 1, 2, 1⟩ : so_ring_buffer_t Nat))
        (some 20) 256 [] =
      .ret 256 (some ⟨[10, 20], 0, 0, 2, 2, 1⟩) :=
  (stop_only_throttles 256 ⟨[10, 0], 0, 1, 1, 2, 1⟩ 20 []
    (by decide) (by decide) (by decide) (by decide) (by decide)).1

/-- Claim C11 (stop is idempotent).  A second call of `ring_buffer_stop` changes
nothing: `stop (stop q) = stop q` for every queue, and also for the null
pointer. -/
theorem stop_idempotent (ring : Option (so_ring_buffer_t P)) :
    ring_buffer_stop (ring_buffer_stop ring) = ring_buffer_stop ring := by
  cases ring <;> rfl

/-- Claim C12 (the stop flag is monotonic).  Once the stop flag is set it is set
in every state reached by any sequence of returning enqueue, dequeue and stop
calls, whatever their arguments and whatever they return. -/
theorem stop_flag_monotonic (sizeof_pkt : Nat) (rb rb' : so_ring_buffer_t P)
    (hstop : rb.stop ≠ 0) (hsteps : Relation.ReflTransGen (Step sizeof_pkt) rb rb') :
    rb'.stop ≠ 0 := by
  induction hsteps with
  | refl => exact hstop
  | tail _ hstep ih =>
    rcases step_stop hstep with h | h
    · rw [h]; exact ih
    · rw [h]; decide

/-- Claim C12 at a concrete input. -/
theorem stop_flag_monotonic_witness :
    Relation.ReflTransGen (Step 256) (⟨[7], 0, 0, 1, 1, 1⟩ : so_ring_buffer_t Nat)
        ⟨[9], 0, 0, 1, 1, 1⟩ ∧
      (⟨[9], 0, 0, 1, 1, 1⟩ : so_ring_buffer_t Nat).stop ≠ 0 := by
  have h1 : Step 256 (⟨[7], 0, 0, 1, 1, 1⟩ : so_ring_buffer_t Nat) ⟨[7], 0, 0, 0, 1, 1⟩ :=
    Step.dequeue _ _ (some 0) (some 7) 256 256 (by decide)
  have h2 : Step 256 (⟨[7], 0, 0, 0, 1, 1⟩ : so_ring_buffer_t Nat) ⟨[9], 0, 0, 1, 1, 1⟩ :=
    Step.enqueue _ _ (some 9) 256 256 (by decide)
  have hs := Relation.ReflTransGen.tail (Relation.ReflTransGen.single h1) h2
  exact ⟨hs, stop_flag_monotonic 256 _ _ (by decide) hs⟩

/-- Claim C13 (stop is not clear).  `ring_buffer_stop` sets the stop flag to 1
and changes nothing else: storage, `read_pos`, `write_pos`, `len` and `cap`
are the same before and after, and so are the queued records. -/
theorem stop_changes_only_flag [Inhabited P] (rb : so_ring_buffer_t P) :
    ∃ rb' : so_ring_buffer_t P,
      ring_buffer_stop (some rb) = some rb' ∧ rb'.stop = 1 ∧
      rb'.data = rb.data ∧ rb'.read_pos = rb.read_pos ∧ rb'.write_pos = rb.write_pos ∧
      rb'.len = rb.len ∧ rb'.cap = rb.cap ∧ contents rb' = contents rb :=
  ⟨{ rb with stop := 1 }, rfl, rfl, rfl, rfl, rfl, rfl, rfl, rfl⟩

/-- Claim C14 (the result line).  When the dequeue of an iteration delivers the
record `b'` and `snprintf` does not fail, the line of the worker is the
outcome token `RES_TO_STR(process_packet(b'))`, one space, the 64-bit digest
as exactly 16 lowercase hexadecimal digits, padded with zeros on the left,
one space, the timestamp in decimal, and one newline.  The line fits in
`out_buf`, and the bytes handed to the single `write` of the iteration are
exactly this line, so their number is its length. -/
theorem result_line_format (lib : PacketLib P) (sizeof_pkt : Nat) (env : IterEnv P)
    (w : Worker P) (r' : so_ring_buffer_t P) (b' : P) (v : Int)
    (hlib : lib.WellFormed sizeof_pkt) (hv : 0 < v)
    (hd : ring_buffer_dequeue sizeof_pkt (some w.ring) (some w.buffer) lib.PKT_SZ env.wakes =
      .ret v (some r', some b'))
    (hfmt : env.snprintf_fails = false) :
    ∃ hex dec : List Char,
      result_line lib b' =
        lib.RES_TO_STR (lib.process_packet b') ++ [' '] ++ hex ++ [' '] ++ dec ++ ['\n'] ∧
      hex.length = 16 ∧
      (∀ c ∈ hex, c ∈ "0123456789abcdef".toList) ∧
      hex_value hex = lib.packet_hash b' % SIZE_MOD ∧
      (∃ k, hex = List.replicate k '0' ++ Nat.toDigits 16 (lib.packet_hash b' % SIZE_MOD)) ∧
      String.mk dec = toString (lib.timestamp b' % SIZE_MOD) ∧
      file_events (consumer_iteration lib sizeof_pkt env w).2 =
        [.file_lock, .sink_write (result_line lib b'), .file_unlock] ∧
      (result_line lib b').length < lib.PKT_SZ := by
  refine ⟨fmt_016lx (lib.packet_hash b' % SIZE_MOD), fmt_lu (lib.timestamp b' % SIZE_MOD),
    ?_, ?_, fmt_016lx_chars _, hex_value_fmt _, ⟨_, rfl⟩, rfl, ?_, result_line_fits hlib b'⟩
  · simp [result_line, format_line]
  · exact fmt_016lx_length (by rw [← size_mod_eq]; exact Nat.mod_lt _ (by decide))
  · have e := iteration_delivered hlib env w r' b' v hv hd
    rw [hfmt] at e
    simp only [Bool.false_eq_true, if_false] at e
    rw [e, file_events_append, file_events_dequeue]
    rfl

/-- Claim C14 at a concrete input. -/
theorem result_line_format_witness :
    file_events (consumer_iteration lib_example 256 ⟨[], false, .full⟩
        ⟨⟨[7], 0, 0, 1, 1, 1⟩, 0, []⟩).2 =
      [.file_lock, .sink_write "DROP 00000000006acfd5 7\n".toList, .file_unlock] := by
  obtain ⟨hex, dec, _, _, _, _, _, _, h, _⟩ :=
    result_line_format lib_example 256 ⟨[], false, .full⟩ ⟨⟨[7], 0, 0, 1, 1, 1⟩, 0, []⟩
      ⟨[7], 0, 0, 0, 1, 1⟩ 7 256 lib_example_wf (by decide) (by decide) rfl
  rw [show result_line lib_example 7 = "DROP 00000000006acfd5 7\n".toList by decide] at h
  exact h

/-- Claim C15 (a worker exits only on an aborted dequeue).  An iteration of the
worker loop reaches the `break` if and only if its `ring_buffer_dequeue`
returned `-1`.  When the dequeue returned a positive value the iteration ends
at the loop head again, whether formatting failed, the write failed, was
short or complete, and the thread goes on with the next iteration.  When it
returned `-1` the queue is stopped and empty, and the thread exits. -/
theorem worker_exits_iff_aborted (lib : PacketLib P) (sizeof_pkt : Nat) (env : IterEnv P)
    (w : Worker P) (hlib : lib.WellFormed sizeof_pkt) :
    ((∃ w', (consumer_iteration lib sizeof_pkt env w).1 = .leave w') ↔
      ∃ post, ring_buffer_dequeue sizeof_pkt (some w.ring) (some w.buffer) lib.PKT_SZ
        env.wakes = .ret (-1) post) ∧
    (∀ (v : Int) (post : Option (so_ring_buffer_t P) × Option P),
      ring_buffer_dequeue sizeof_pkt (some w.ring) (some w.buffer) lib.PKT_SZ env.wakes =
        .ret v post → 0 < v →
      ∃ w', (consumer_iteration lib sizeof_pkt env w).1 = .again w' ∧
        ∀ envs, (consumer_thread lib sizeof_pkt (env :: envs) w).1 =
          (consumer_thread lib sizeof_pkt envs w').1) ∧
    (∀ post : Option (so_ring_buffer_t P) × Option P,
      ring_buffer_dequeue sizeof_pkt (some w.ring) (some w.buffer) lib.PKT_SZ env.wakes =
        .ret (-1) post →
      ∃ r', post = (some r', some w.buffer) ∧ r'.stop ≠ 0 ∧ r'.len = 0 ∧
        (consumer_iteration lib sizeof_pkt env w).1 = .leave ⟨r', w.buffer, w.sink⟩ ∧
        ∀ envs, (consumer_thread lib sizeof_pkt (env :: envs) w).1 =
          .exited ⟨r', w.buffer, w.sink⟩) := by
  have hne : ((sizeof_pkt : Nat) : Int) ≠ -1 := by omega
  have hthread_again : ∀ w', (consumer_iteration lib sizeof_pkt env w).1 = .again w' →
      ∀ envs, (consumer_thread lib sizeof_pkt (env :: envs) w).1 =
        (consumer_thread lib sizeof_pkt envs w').1 := by
    intro w' h envs
    rw [consumer_thread]
    cases hi : consumer_iteration lib sizeof_pkt env w with
    | mk it evs => rw [hi] at h; simp only at h; subst h; rfl
  have hthread_leave : ∀ w', (consumer_iteration lib sizeof_pkt env w).1 = .leave w' →
      ∀ envs, (consumer_thread lib sizeof_pkt (env :: envs) w).1 = .exited w' := by
    intro w' h envs
    rw [consumer_thread]
    cases hi : consumer_iteration lib sizeof_pkt env w with
    | mk it evs => rw [hi] at h; simp only at h; subst h; rfl
  rcases iteration_cases hlib env w with ⟨hd, hi, _⟩ | ⟨hd, hi, _⟩ | ⟨r', hd, hs, hl, hi, _⟩ |
      ⟨r', b', hd, hi⟩
  · refine ⟨⟨?_, ?_⟩, ?_, ?_⟩
    · rintro ⟨w', h⟩; rw [hi] at h; cases h
    · rintro ⟨post, h⟩; rw [hd] at h; cases h
    · intro v post h; rw [hd] at h; cases h
    · intro post h; rw [hd] at h; cases h
  · refine ⟨⟨?_, ?_⟩, ?_, ?_⟩
    · rintro ⟨w', h⟩; rw [hi] at h; cases h
    · rintro ⟨post, h⟩; rw [hd] at h; cases h
    · intro v post h; rw [hd] at h; cases h
    · intro post h; rw [hd] at h; cases h
  · refine ⟨⟨fun _ => ⟨_, hd⟩, fun _ => ⟨_, hi⟩⟩, ?_, ?_⟩
    · intro v post h hv
      rw [hd] at h
      injection h with h1 _
      omega
    · intro post h
      rw [hd] at h
      injection h with _ h2
      exact ⟨r', h2.symm, hs, hl, hi, hthread_leave _ hi⟩
  · have hag : ∃ w', (consumer_iteration lib sizeof_pkt env w).1 = .again w' := by
      rcases hi with ⟨_, h, _⟩ | ⟨_, h, _⟩
      · exact ⟨_, h⟩
      · exact ⟨_, h⟩
    obtain ⟨w', hw'⟩ := hag
    refine ⟨⟨?_, ?_⟩, ?_, ?_⟩
    · rintro ⟨w'', h⟩; rw [hw'] at h; cases h
    · rintro ⟨post, h⟩
      rw [hd] at h
      injection h with h1 _
      exact absurd h1 hne
    · intro v post _ _
      exact ⟨w', hw', hthread_again _ hw'⟩
    · intro post h
      rw [hd] at h
      injection h with h1 _
      exact absurd h1 hne

/-- Claim C15 at a concrete input. -/
theorem worker_exits_iff_aborted_witness :
    (consumer_thread lib_example 256 [⟨[], false, .full⟩, ⟨[], false, .error⟩]
        ⟨⟨[0, 0, 0, 0], 0, 0, 0, 4, 1⟩, 0, []⟩).1 =
      .exited ⟨⟨[0, 0, 0, 0], 0, 0, 0, 4, 1⟩, 0, []⟩ := by
  obtain ⟨r', hp, _, _, _, h⟩ :=
    (worker_exits_iff_aborted lib_example 256 ⟨[], false, .full⟩
      ⟨⟨[0, 0, 0, 0], 0, 0, 0, 4, 1⟩, 0, []⟩ lib_example_wf).2.2
      (some ⟨[0, 0, 0, 0], 0, 0, 0, 4, 1⟩, some 0) (by decide)
  have e : r' = ⟨[0, 0, 0, 0], 0, 0, 0, 4, 1⟩ := by
    injection hp with h1 _
    exact (Option.some.inj h1).symm
  rw [e] at h
  exact h [⟨[], false, .error⟩]

/-- Claim C16 (a single worker drains the queue).  Let the queue be reachable
and stopped and hold `r1, ..., rk`.  A worker that runs alone for at least
`k + 1` iterations, with `snprintf` never failing and every write complete,
reaches `pthread_exit`.  The file then holds what it held before followed by
the lines of `r1, ..., rk` in this order, the queue is empty, and the writes
of the run are exactly these `k` lines, each inside its own lock and unlock
of the file mutex: no record is processed twice and none is lost. -/
theorem single_worker_drain [Inhabited P] (lib : PacketLib P) (sizeof_pkt cap : Nat)
    (w : Worker P) (envs : List (IterEnv P))
    (hlib : lib.WellFormed sizeof_pkt) (hcap : cap < SIZE_MOD)
    (hreach : Reachable sizeof_pkt cap w.ring) (hstop : w.ring.stop ≠ 0)
    (hlen : (contents w.ring).length < envs.length)
    (hfull : ∀ env ∈ envs, env.snprintf_fails = false ∧ env.write_result = .full) :
    ∃ w', (consumer_thread lib sizeof_pkt envs w).1 = .exited w' ∧
      w'.sink = w.sink ++ ((contents w.ring).map (result_line lib)).flatten ∧
      contents w'.ring = [] ∧
      file_events (consumer_thread lib sizeof_pkt envs w).2 =
        (contents w.ring).flatMap
          (fun r => [.file_lock, .sink_write (result_line lib r), .file_unlock]) := by
  obtain ⟨hinv, _⟩ := reachable_inv hcap hreach
  rw [contents_length] at hlen
  obtain ⟨w', h1, h2, h3, _, h5⟩ := drain_thread hlib envs w hinv hstop hlen hfull
  exact ⟨w', h1, h2, h3, h5⟩

/-- Claim C16 at a concrete input. -/
theorem single_worker_drain_witness :
    ∃ w', (consumer_thread lib_example 256
        [⟨[], false, .full⟩, ⟨[], false, .full⟩, ⟨[], false, .full⟩]
        ⟨⟨[30, 20], 1, 1, 2, 2, 1⟩, 0, []⟩).1 = .exited w' ∧
      w'.sink = "PASS 0000000001312d3c 20\nPASS 0000000001c9c3da 30\n".toList := by
  obtain ⟨w', h1, h2, _, _⟩ :=
    single_worker_drain lib_example 256 2 ⟨⟨[30, 20], 1, 1, 2, 2, 1⟩, 0, []⟩
      [⟨[], false, .full⟩, ⟨[], false, .full⟩, ⟨[], false, .full⟩]
      lib_example_wf (by decide) reachable_stopped (by decide) (by decide) (by decide)
  refine ⟨w', h1, ?_⟩
  rw [h2]
  decide

/-- Claim C17 (starting the pool) does not hold for the cleanup of a partial
pool.  Four workers are asked for, `open` returns 3, worker 2 cannot be
started, and workers 0 and 1 are idle in `pthread_cond_wait` on the empty
queue.  `create_consumers` cancels and joins worker 0, which ends owning
`ring->lock`; worker 1 can then never lock it again, so `pthread_join` of
worker 1 never returns: the call returns no value, worker 1 is not joined
and the file stays open. -/
theorem create_consumers_cleanup_hangs :
    create_consumers pool_env_example 4 (7 : Nat) (9 : Nat) =
      (none, [.open_file 9 3, .create 0 ⟨7, 9, 3⟩, .create 1 ⟨7, 9, 3⟩,
        .cancel 0, .join 0, .cancel 1]) ∧
    running_workers (create_consumers pool_env_example 4 (7 : Nat) (9 : Nat)).2 [] = [1] ∧
    open_files (create_consumers pool_env_example 4 (7 : Nat) (9 : Nat)).2 [] = [3] := by
  refine ⟨?_, ?_, ?_⟩ <;> rfl

/-- Claim C18 (the stop flag is read under the queue mutex) does not hold for
the worker.  On a stopped, empty queue of capacity 4 the iteration of
`consumer_thread` leaves the loop after these events: `ring_buffer_dequeue`
locks the queue mutex, reads the flag and unlocks; then the worker reads
`ring_buffer->stop` itself, with the mutex free, to decide on the `break`. -/
theorem worker_reads_stop_without_lock :
    consumer_iteration lib_example 256 ⟨[], false, .full⟩ ⟨⟨[0, 0, 0, 0], 0, 0, 0, 4, 1⟩, 0, []⟩ =
      (.leave ⟨⟨[0, 0, 0, 0], 0, 0, 0, 4, 1⟩, 0, []⟩,
        [.queue_lock, .stop_read, .queue_unlock, .stop_read]) ∧
    stop_access_locked false
      (consumer_iteration lib_example 256 ⟨[], false, .full⟩
        ⟨⟨[0, 0, 0, 0], 0, 0, 0, 4, 1⟩, 0, []⟩).2 = false := by
  constructor <;> rfl

/-- Claim C19 (the file mutex).  In every iteration of the worker loop each
`write` on the file happens with the file mutex held, and the mutex is free
at the end.  An iteration whose dequeue delivered a record and whose
`snprintf` did not fail locks once, issues one `write` with the whole line,
and unlocks once, whatever the outcome of the write.  An iteration whose
`snprintf` fails, or whose dequeue returns `-1`, touches neither the mutex nor
the file. -/
theorem sink_lock_discipline (lib : PacketLib P) (sizeof_pkt : Nat) (env : IterEnv P)
    (w : Worker P) (hlib : lib.WellFormed sizeof_pkt) :
    sink_access_locked false (consumer_iteration lib sizeof_pkt env w).2 = true ∧
    (∀ (v : Int) (r' : so_ring_buffer_t P) (b' : P), 0 < v →
      ring_buffer_dequeue sizeof_pkt (some w.ring) (some w.buffer) lib.PKT_SZ env.wakes =
        .ret v (some r', some b') →
      env.snprintf_fails = false →
      file_events (consumer_iteration lib sizeof_pkt env w).2 =
        [.file_lock, .sink_write (result_line lib b'), .file_unlock]) ∧
    (env.snprintf_fails = true →
      file_events (consumer_iteration lib sizeof_pkt env w).2 = []) ∧
    (∀ post : Option (so_ring_buffer_t P) × Option P,
      ring_buffer_dequeue sizeof_pkt (some w.ring) (some w.buffer) lib.PKT_SZ env.wakes =
        .ret (-1) post →
      file_events (consumer_iteration lib sizeof_pkt env w).2 = []) := by
  have hne : ((sizeof_pkt : Nat) : Int) ≠ -1 := by omega
  refine ⟨?_, ?_, ?_, ?_⟩
  · rw [sink_access_file_events]
    rcases iteration_cases hlib env w with ⟨_, _, he⟩ | ⟨_, _, he⟩ | ⟨_, _, _, _, _, he⟩ |
        ⟨_, _, _, ⟨_, _, he⟩ | ⟨_, _, he⟩⟩ <;> rw [he] <;> rfl
  · intro v r' b' hv hd hf
    have e := iteration_delivered hlib env w r' b' v hv hd
    rw [hf] at e
    simp only [Bool.false_eq_true, if_false] at e
    rw [e, file_events_append, file_events_dequeue]
    rfl
  · intro hf
    rcases iteration_cases hlib env w with ⟨_, _, he⟩ | ⟨_, _, he⟩ | ⟨_, _, _, _, _, he⟩ |
        ⟨_, _, _, ⟨_, _, he⟩ | ⟨hf', _, _⟩⟩
    · exact he
    · exact he
    · exact he
    · exact he
    · rw [hf] at hf'; cases hf'
  · intro post hd
    rcases iteration_cases hlib env w with ⟨_, _, he⟩ | ⟨_, _, he⟩ | ⟨_, _, _, _, _, he⟩ |
        ⟨_, _, hd', _⟩
    · exact he
    · exact he
    · exact he
    · rw [hd'] at hd
      injection hd with h1 _
      exact absurd h1 hne

/-- Claim C19 at a concrete input. -/
theorem sink_lock_discipline_witness :
    sink_access_locked false
      (consumer_iteration lib_example 256 ⟨[], false, .short 3⟩
        ⟨⟨[7], 0, 0, 1, 1, 0⟩, 0, []⟩).2 = true :=
  (sink_lock_discipline lib_example 256 ⟨[], false, .short 3⟩ ⟨⟨[7], 0, 0, 1, 1, 0⟩, 0, []⟩
    lib_example_wf).1

/-- Claim C20 (argument validation).  With a null queue, a null record or a
`size` other than `sizeof_pkt`, enqueue and dequeue return `-1` at once in
every state and change neither the queue nor the record.  A call on a
reachable queue that returns a non-negative value returns `sizeof_pkt`; its
arguments were valid and it appended exactly the given record at the back,
respectively removed exactly the front record and delivered it. -/
theorem argument_validation [Inhabited P] (sizeof_pkt cap : Nat) (rb : so_ring_buffer_t P)
    (hsz : sizeof_pkt < 2 ^ 63) (hcap : cap < SIZE_MOD)
    (hreach : Reachable sizeof_pkt cap rb) :
    (∀ (ring : Option (so_ring_buffer_t P)) (data : Option P) (size : Nat)
        (wakes : List (so_ring_buffer_t P)),
      ring = none ∨ data = none ∨ size ≠ sizeof_pkt →
        ring_buffer_enqueue sizeof_pkt ring data size wakes = .ret (-1) ring ∧
        ring_buffer_dequeue sizeof_pkt ring data size wakes = .ret (-1) (ring, data)) ∧
    (∀ (data : Option P) (size : Nat) (v : Int) (post : Option (so_ring_buffer_t P)),
      ring_buffer_enqueue sizeof_pkt (some rb) data size [] = .ret v post → 0 ≤ v →
        v = (sizeof_pkt : Int) ∧
        ∃ (x : P) (rb' : so_ring_buffer_t P),
          data = some x ∧ size = sizeof_pkt ∧ post = some rb' ∧
          contents rb' = contents rb ++ [x] ∧ rb'.len = rb.len + 1) ∧
    (∀ (data out : Option P) (size : Nat) (v : Int) (post : Option (so_ring_buffer_t P)),
      ring_buffer_dequeue sizeof_pkt (some rb) data size [] = .ret v (post, out) → 0 ≤ v →
        v = (sizeof_pkt : Int) ∧
        ∃ (r : P) (rb' : so_ring_buffer_t P),
          data ≠ none ∧ size = sizeof_pkt ∧ post = some rb' ∧ out = some r ∧
          contents rb = r :: contents rb' ∧ rb'.len + 1 = rb.len) := by
  obtain ⟨hinv, _⟩ := reachable_inv hcap hreach
  refine ⟨fun ring data size wakes h =>
    ⟨enqueue_invalid sizeof_pkt ring data size wakes h,
      dequeue_invalid sizeof_pkt ring data size wakes h⟩, ?_, ?_⟩
  · intro data size v post hc hv
    obtain ⟨rb', rfl⟩ := enqueue_post_some hc
    rcases enqueue_step_cases hinv hc with ⟨_, ev⟩ | ⟨x, hd, hs, hne, ev, e⟩
    · omega
    · rw [to_ssize_t_of_lt hsz] at ev
      refine ⟨ev, x, rb', hd, hs, rfl, ?_, ?_⟩
      · rw [e]; exact contents_enqueue hinv x hne
      · rw [e]
  · intro data out size v post hc hv
    obtain ⟨rb', rfl⟩ := dequeue_post_some hc
    rcases dequeue_step_cases hinv hc with ⟨_, _, ev⟩ | ⟨hd, hs, hne, ev, e, eo⟩
    · omega
    · rw [to_ssize_t_of_lt hsz] at ev
      refine ⟨ev, _, rb', hd, hs, rfl, eo, ?_, ?_⟩
      · rw [e]; exact contents_dequeue hinv hne
      · rw [e]; show rb.len - 1 + 1 = rb.len; omega

/-- Claim C20 at a concrete input. -/
theorem argument_validation_witness :
    ring_buffer_enqueue 256 (some (⟨[30, 20], 1, 1, 2, 2, 0⟩ : so_ring_buffer_t Nat))
        (some 40) 255 [] = .ret (-1) (some ⟨[30, 20], 1, 1, 2, 2, 0⟩) ∧
      ring_buffer_dequeue 256 (some (⟨[30, 20], 1, 1, 2, 2, 0⟩ : so_ring_buffer_t Nat))
        (none : Option Nat) 256 [] = .ret (-1) (some ⟨[30, 20], 1, 1, 2, 2, 0⟩, none) :=
  ⟨((argument_validation 256 2 ⟨[30, 20], 1, 1, 2, 2, 0⟩ (by decide) (by decide)
      reachable_example).1 (some ⟨[30, 20], 1, 1, 2, 2, 0⟩) (some 40) 255 []
        (Or.inr (Or.inr (by decide)))).1,
   ((argument_validation 256 2 ⟨[30, 20], 1, 1, 2, 2, 0⟩ (by decide) (by decide)
      reachable_example).1 (some ⟨[30, 20], 1, 1, 2, 2, 0⟩) none 256 []
        (Or.inr (Or.inl rfl))).2⟩

end Claims

end ParallelFirewall
